import Mathlib

/-!
Verification development for the egui-trace span-decoding and
trace-reconstruction engine.

The definitions below are a shallow embedding of the Rust sources:

* `Span`, `Trace`, `build_traces`, `Trace.new`, `build_tree_vec`,
  `Span.new`, `parse_file` — from `crates/lib/src/lib.rs`;
* `export_trace` — from `crates/lib/src/collector/mod.rs`;
* `OtelSpan` and its conversion to `Span` — from `src/otel.rs`
  (the line-delimited file schema);
* `collect_spans_and_recalculate` — from `crates/app/src/lib.rs`.

Modelling conventions:

* timestamps (`chrono::DateTime<Utc>`) are the nanosecond timeline as `Int`;
* Rust `HashMap` is an association list whose iteration order is the
  insertion order of keys (Rust guarantees no particular order; this is one
  deterministic refinement of it);
* `BTreeMap` string maps are association lists (their ordering plays no
  role in any claim);
* a Rust panic (`expect`) is `Except.error`;
* the recursion of `build_tree_vec` carries explicit fuel.  The source
  recursion terminates whenever span ids are distinct, in which case the
  chosen fuel (`descendants.length + 1`) bounds the recursion depth, so the
  fuelled function computes exactly what the source computes.
-/

deriving instance DecidableEq for Except

namespace EguiTrace

/-- Signed 64-bit bounds, for `chrono`'s checked microsecond arithmetic. -/
def i64Min : Int := -(2 ^ 63)

/-- Upper signed 64-bit bound. -/
def i64Max : Int := 2 ^ 63 - 1

/-- Division by 1000 truncating toward zero, as Rust's `i64` division and
`chrono`'s `num_microseconds` perform it on the total nanosecond count. -/
def truncDiv1000 (n : Int) : Int :=
  if 0 ≤ n then ((n.toNat / 1000 : Nat) : Int) else -(((-n).toNat / 1000 : Nat) : Int)

/-- `chrono::Duration::num_microseconds` on a duration of `nanos`
nanoseconds: the whole microsecond count truncated toward zero, or `none`
when that count overflows `i64` (the `checked_mul`/`checked_add` path). -/
def num_microseconds (nanos : Int) : Option Int :=
  let micros := truncDiv1000 nanos
  if i64Min ≤ micros ∧ micros ≤ i64Max then some micros else none

/-- `NaiveDateTime::timestamp_micros` for a nonnegative nanosecond
timestamp (all protocol timestamps are `u64` nanoseconds). -/
def timestampMicros (nanos : Nat) : Int := (nanos / 1000 : Nat)

/-- One lowercase hexadecimal digit, as `format!("{:x}", _)` renders it. -/
def hexChar (n : Nat) : Char :=
  if n < 10 then Char.ofNat (48 + n) else Char.ofNat (87 + n)

/-- Hex digits, most significant first; the first argument is fuel, which
strictly exceeds the number of divisions by 16 whenever it is at least the
number being rendered. -/
def hexDigitsAux : Nat → Nat → List Char
  | 0, _ => []
  | fuel + 1, n => if n = 0 then [] else hexDigitsAux fuel (n / 16) ++ [hexChar (n % 16)]

/-- Hex digits of a positive number, most significant first. -/
def hexDigits (n : Nat) : List Char := hexDigitsAux n n

/-- `format!("{:x}", n)`: lowercase hex, no leading zeros, `"0"` for zero. -/
def hexString (n : Nat) : String :=
  if n = 0 then "0" else String.mk (hexDigits n)

/-- `uN::from_be_bytes`: big-endian interpretation of a byte sequence. -/
def beBytesToNat (bytes : List Nat) : Nat :=
  bytes.foldl (fun acc b => acc * 256 + b) 0

/-- The canonical span record (`struct Span` in `lib.rs`). -/
structure Span where
  id : String
  name : String
  /-- Absolute start, nanoseconds on the UTC timeline. -/
  start : Int
  /-- Microsecond relative offset from beginning of root span. -/
  offset_micros : Int
  /-- Microsecond duration of span. -/
  duration_micros : Int
  /-- Depth within `Trace`. -/
  level : Nat
  trace_id : String
  /-- `none` means root span. -/
  parent_id : Option String
  attributes : List (String × String)
  metadata : List (String × String)
deriving DecidableEq

/-- `Span::default()`. -/
def Span.default : Span :=
  { id := "", name := "", start := 0, offset_micros := 0, duration_micros := 0
    level := 0, trace_id := "", parent_id := none, attributes := [], metadata := [] }

/-! ### Association lists standing in for `HashMap` -/

/-- `HashMap::get`. -/
def lookupA {β : Type} (k : String) : List (String × β) → Option β
  | [] => none
  | (k', v) :: t => if k' = k then some v else lookupA k t

/-- `HashMap::insert` (replaces in place; fresh keys go to the back). -/
def insertA {β : Type} (k : String) (v : β) : List (String × β) → List (String × β)
  | [] => [(k, v)]
  | (k', v') :: t => if k' = k then (k, v) :: t else (k', v') :: insertA k v t

/-- `map.entry(k).or_default().push(x)`. -/
def pushEntry {β : Type} (k : String) (x : β) :
    List (String × List β) → List (String × List β)
  | [] => [(k, [x])]
  | (k', xs) :: t => if k' = k then (k', xs ++ [x]) :: t else (k', xs) :: pushEntry k x t

/-- `HashMap::values`. -/
def valuesA {β : Type} (m : List (String × β)) : List β := m.map Prod.snd

/-- `descendants.collect::<HashMap<_, _>>()` keyed by span id. -/
def spansMapOf (l : List Span) : List (String × Span) :=
  l.foldl (fun m s => insertA s.id s m) []

/-- The parent-id → child-ids index built by folding over the map values. -/
def connectionsOf (vals : List Span) : List (String × List String) :=
  vals.foldl
    (fun m s =>
      match s.parent_id with
      | some p => pushEntry p s.id m
      | none => m)
    []

/-! ### Sorting children by start timestamp -/

/-- The key order of `children.sort_by_key(|child| child.start)`. -/
def spanLe (a b : Span) : Prop := a.start ≤ b.start

instance : DecidableRel spanLe := fun a b => inferInstanceAs (Decidable (a.start ≤ b.start))

instance : IsTotal Span spanLe := ⟨fun a b => Int.le_total a.start b.start⟩

instance : IsTrans Span spanLe := ⟨fun _ _ _ hab hbc => le_trans hab hbc⟩

/-- Strict version of `spanLe`, used to identify stable sorts. -/
def spanLt (a b : Span) : Prop := a.start < b.start

instance : DecidableRel spanLt := fun a b => inferInstanceAs (Decidable (a.start < b.start))

instance : IsAntisymm Span spanLt := ⟨fun _ _ h1 h2 => absurd h2 (Int.not_lt.mpr (le_of_lt h1))⟩

/-! ### Trace assembly (`Trace::new` in `lib.rs`) -/

/-- `offset_micros = (span.start - root.start).num_microseconds().unwrap_or_default()`. -/
def setOffset (root : Span) (s : Span) : Span :=
  { s with offset_micros := (num_microseconds (s.start - root.start)).getD 0 }

/-- Build `Vec<Span>` in pre-order (the inner `build_tree_vec` of
`Trace::new`).  `fuel` bounds the recursion depth; the source recursion
terminates exactly when no lasso of duplicate ids is reachable, and for
inputs with distinct span ids a fuel of `descendants.length + 1` is enough
to reproduce it exactly. -/
def build_tree_vec :
    Nat → String → List (String × List String) → List (String × Span) →
      List Span → Nat → List Span
  | 0, _, _, _, acc, _ => acc
  | fuel + 1, id, connections, spans, acc, level =>
    match lookupA id connections with
    | none => acc
    | some childIds =>
      let children := childIds.filterMap fun cid => lookupA cid spans
      let sorted := List.insertionSort spanLe children
      let more := sorted.foldl
        (fun m child =>
          build_tree_vec fuel child.id connections spans
            (m ++ [{ child with level := level + 1 }]) (level + 1))
        []
      acc ++ more

/-- The reconstructed tree for one trace id. -/
structure Trace where
  id : String
  spans : List Span
  /-- Map from span id to positions in `spans`. -/
  connections : List (String × List Nat)
deriving DecidableEq

/-- The final index from span id to positions in the pre-order vector. -/
def indexConnections (spans : List Span) : List (String × List Nat) :=
  spans.enum.foldl (fun acc iv => pushEntry iv.2.id iv.1 acc) []

/-- `Trace::new(root, descendants)`. -/
def Trace.new (root : Span) (descendants : List Span) : Trace :=
  let descendants' := descendants.map (setOffset root)
  let dmap := spansMapOf descendants'
  let connections := connectionsOf (valuesA dmap)
  let spans := build_tree_vec (descendants'.length + 1) root.id connections dmap [root] 0
  { id := root.trace_id, spans := spans, connections := indexConnections spans }

/-- `build_traces`, as the pure list it wraps in `Ok`. -/
def buildTracesList (spans : List Span) : List Trace :=
  let roots := spans.filter fun s => s.parent_id.isNone
  let rest := spans.filter fun s => !s.parent_id.isNone
  let restMap := rest.foldl (fun m s => pushEntry s.trace_id s m) []
  roots.map fun root => Trace.new root ((lookupA root.trace_id restMap).getD [])

/-- `pub fn build_traces(spans: Vec<Span>) -> Result<Vec<Trace>, String>`. -/
def build_traces (spans : List Span) : Except String (List Trace) :=
  .ok (buildTracesList spans)

/-! ### Derived views of the tree builder, used by the verification -/

/-- `HashMap::keys`. -/
def keysA {β : Type} (m : List (String × β)) : List String := m.map Prod.fst

/-- The invariant of the id-keyed span map: distinct keys, each the id of
its value. -/
def MapWf (m : List (String × Span)) : Prop :=
  (keysA m).Nodup ∧ ∀ kv ∈ m, kv.1 = kv.2.id

/-- The start-sorted children list `build_tree_vec` processes at node
`id`, expressed over the value list the maps were built from. -/
def childrenAt (vals : List Span) (id : String) : List Span :=
  List.insertionSort spanLe
    (((lookupA id (connectionsOf vals)).getD []).filterMap fun cid =>
      lookupA cid (spansMapOf vals))

/-- The spans `build_tree_vec` emits below node `id` (excluding the
accumulator), over the value list the maps were built from. -/
def emitAux (vals : List Span) (fuel : Nat) (id : String) (lvl : Nat) : List Span :=
  build_tree_vec fuel id (connectionsOf vals) (spansMapOf vals) [] lvl

/-- The value list of the id-keyed descendant map of `Trace::new`. -/
def traceVals (root : Span) (descendants : List Span) : List Span :=
  valuesA (spansMapOf (descendants.map (setOffset root)))

/-- The candidate descendants `build_traces` hands to the root of `tid`. -/
def groupOf (spans : List Span) (tid : String) : List Span :=
  (spans.filter fun s => !s.parent_id.isNone).filter fun s => s.trace_id == tid

/-- One parent-pointer step through the descendant map. -/
def pStep (vals : List Span) (k : String) : Option String :=
  match lookupA k (spansMapOf vals) with
  | some s => s.parent_id
  | none => none

/-- Iterated parent-pointer steps (absorbing on a missing entry). -/
def pChain (vals : List Span) : Nat → Option String → Option String
  | 0, o => o
  | n + 1, o => pChain vals n (o.bind fun k => pStep vals k)

/-- `Path vals id A`: `A = id :: … :: base` climbs parent pointers through
`vals` with pairwise-distinct entries, ending at an id carried by no value
(in `Trace::new`, the root id). -/
inductive Path (vals : List Span) : String → List String → Prop
  | base (k : String) (hk : k ∉ vals.map Span.id) : Path vals k [k]
  | step (k p : String) (A : List String) (s : Span) (hs : s ∈ vals) (hid : s.id = k)
      (hparent : s.parent_id = some p) (hA : Path vals p A) (hnew : k ∉ A) :
      Path vals k (k :: A)

/-- Pre-order well-formedness of an assembled span vector: every non-head
element's `parent_id` is the id of some span among its predecessors, with
a level one smaller. -/
def PreOrderOk (l : List Span) : Prop :=
  ∀ pre x post, l = pre ++ x :: post → pre ≠ [] →
    ∃ s ∈ pre, some s.id = x.parent_id ∧ x.level = s.level + 1

/-- No two spans naming the same parent share a start timestamp. -/
def SiblingStartsNodup (spans : List Span) : Prop :=
  ∀ p ∈ spans.filterMap Span.parent_id,
    ((spans.filter fun s => s.parent_id == some p).map Span.start).Nodup

instance (spans : List Span) : Decidable (SiblingStartsNodup spans) := by
  unfold SiblingStartsNodup; infer_instance

/-! ### Concrete spans for the assembly claims -/

/-- A root span of trace `"t"`. -/
def spanRootT : Span := { Span.default with id := "r", trace_id := "t" }

/-- A child of `"r"` starting at 100 ns. -/
def spanTieA : Span :=
  { Span.default with id := "a", trace_id := "t", parent_id := some "r", start := 100 }

/-- Another child of `"r"` with the same start timestamp. -/
def spanTieB : Span :=
  { Span.default with id := "b", trace_id := "t", parent_id := some "r", start := 100 }

/-- A span whose declared parent `"zzz"` exists nowhere. -/
def spanOrphanX : Span :=
  { Span.default with id := "x", trace_id := "t", parent_id := some "zzz", start := 50 }

/-- A child of `"r"` starting exactly 500 ms after the root's start. -/
def spanChildC1 : Span :=
  { Span.default with id := "c1", trace_id := "t", parent_id := some "r", start := 500000000 }

/-- A child of `"r"` starting 2 s after the root's start. -/
def spanChildC2 : Span :=
  { Span.default with id := "c2", trace_id := "t", parent_id := some "r", start := 2000000000 }

/-- A grandchild below `"c1"`. -/
def spanGrandD : Span :=
  { Span.default with id := "d", trace_id := "t", parent_id := some "c1", start := 600000000 }

/-- A well-formed trace submitted with its children out of start order. -/
def spansFixture : List Span := [spanRootT, spanChildC2, spanChildC1, spanGrandD]

/-- A root plus an orphaned span. -/
def spansFixtureOrphan : List Span := [spanRootT, spanOrphanX]

/-- A root, a good child and an orphaned span. -/
def spansFixtureMixed : List Span := [spanRootT, spanChildC1, spanOrphanX]

/-- Two equal-start siblings, submitted in one order… -/
def spansTie1 : List Span := [spanRootT, spanTieA, spanTieB]

/-- …and in the other order. -/
def spansTie2 : List Span := [spanRootT, spanTieB, spanTieA]

/-- Distinct-start children, submitted in one order… -/
def spansDet1 : List Span := [spanRootT, spanChildC2, spanChildC1]

/-- …and in the other order. -/
def spansDet2 : List Span := [spanRootT, spanChildC1, spanChildC2]

/-! ### Shared helpers for fallible iteration -/

/-- Rust's `collect::<Result<Vec<_>, _>>()`: stop at the first error. -/
def mapExcept {α β : Type} (f : α → Except String β) : List α → Except String (List β)
  | [] => .ok []
  | x :: xs =>
    match f x with
    | .error e => .error e
    | .ok y =>
      match mapExcept f xs with
      | .error e => .error e
      | .ok ys => .ok (y :: ys)

/-- `BTreeMap::insert` on a key-sorted association list. -/
def btreeInsert (k v : String) : List (String × String) → List (String × String)
  | [] => [(k, v)]
  | (k', v') :: t =>
    if k = k' then (k, v) :: t
    else if k < k' then (k, v) :: (k', v') :: t
    else (k', v') :: btreeInsert k v t

/-- Collect a pair sequence into a `BTreeMap` (later duplicates win). -/
def btreeOfList (l : List (String × String)) : List (String × String) :=
  l.foldl (fun m kv => btreeInsert kv.1 kv.2 m) []

/-- `BTreeMap::extend` / `BTreeMap::append`: the right-hand entries win. -/
def btreeExtend (m adds : List (String × String)) : List (String × String) :=
  adds.foldl (fun m kv => btreeInsert kv.1 kv.2 m) m

/-! ### File-batch schema (`src/otel.rs`) -/

/-- `SpanContext` of the line-delimited schema. -/
structure SpanContext where
  trace_id : String
  span_id : String
deriving DecidableEq

/-- `Status` of the line-delimited schema. -/
structure OtelStatus where
  code : String
  description : String
deriving DecidableEq

/-- `InstrumentationLibrary` of the line-delimited schema. -/
structure OtelLibrary where
  name : String
  version : String
  schema_url : String
deriving DecidableEq

/-- `otel::Span`: one JSON line of the bulk file format.  `startTime` and
`endTime` are the deserialized timestamps on the nanosecond timeline
(the source names the fields `start`/`end`; `end` is reserved in Lean).
Attribute values in this path are 64-bit integers only; resource values
are strings only, exactly as the source's single-variant enums allow. -/
structure OtelSpan where
  name : String
  context : SpanContext
  parent : SpanContext
  startTime : Int
  endTime : Int
  attributes : Option (List (String × Int))
  status : OtelStatus
  resource : List (String × String)
  library : OtelLibrary
deriving DecidableEq

/-- `otel::Span::is_root`: the parent context's trace id is all-zero. -/
def OtelSpan.is_root (s : OtelSpan) : Bool :=
  s.parent.trace_id.toList.all (· = '0')

/-- `impl From<otel::Span> for Span`. -/
def otelSpanToSpan (value : OtelSpan) : Span :=
  let parent_id := if value.is_root then none else some value.parent.span_id
  let attributes :=
    btreeOfList (((value.attributes.getD []).map fun kv => (kv.1, toString kv.2)))
  let metadata := btreeOfList value.resource
  let metadata :=
    btreeInsert "status.code"
      (if value.status.code = "Unset" then "-" else value.status.code) metadata
  let metadata := btreeInsert "status.description" value.status.description metadata
  let metadata := btreeInsert "library.name" value.library.name metadata
  let metadata := btreeInsert "library.version" value.library.version metadata
  let metadata := btreeInsert "library.schema_url" value.library.schema_url metadata
  { id := value.context.span_id
    name := value.name
    start := value.startTime
    offset_micros := 0
    duration_micros := (num_microseconds (value.endTime - value.startTime)).getD 0
    level := 0
    trace_id := value.context.trace_id
    parent_id := parent_id
    attributes := attributes
    metadata := metadata }

/-- Split a character sequence at every occurrence of `c`. -/
def splitOnCharAux (c : Char) : List Char → List Char → List (List Char)
  | [], cur => [cur.reverse]
  | x :: xs, cur =>
    if x = c then cur.reverse :: splitOnCharAux c xs []
    else splitOnCharAux c xs (x :: cur)

/-- `str::lines`: split at `\n`, drop one trailing `\r` per line, and do
not produce a final empty line for a trailing terminator. -/
def splitLines (s : String) : List String :=
  let parts := splitOnCharAux '\n' s.data []
  let parts := if parts.getLast? = some [] then parts.dropLast else parts
  parts.map fun l =>
    String.mk (if l.getLast? = some '\r' then l.dropLast else l)

/-- `parse_file`, given the file's contents.  The JSON codec
(`serde_json::from_str` applied to the `otel::Span` schema) is an external
collaborator and is passed in as `decodeLine`; everything else — line
splitting, 1-based line numbering of the first failure, all-or-nothing
collection, conversion to canonical spans — is the source's logic. -/
def parse_file (decodeLine : String → Except String OtelSpan) (contents : String) :
    Except String (List Span) :=
  match mapExcept
      (fun il =>
        (decodeLine il.2).mapError
          (fun e => "unable to parse line " ++ toString (il.1 + 1) ++ ": " ++ e))
      (splitLines contents).enum with
  | .error e => .error e
  | .ok parsed => .ok (parsed.map otelSpanToSpan)

/-! ### Wire protocol (`crates/lib/src/collector/mod.rs` and `Span::new`) -/

/-- A raw protobuf span.  Attribute payloads are carried as their
flat stringified key/value form (the attribute mapper is an orthogonal
component; no claim depends on its stringification). -/
structure RawSpan where
  trace_id : List Nat
  span_id : List Nat
  parent_span_id : List Nat
  name : String
  start_time_unix_nano : Nat
  end_time_unix_nano : Nat
  attributes : List (String × String)
deriving DecidableEq

/-- One `ScopeSpans` message. -/
structure ScopeSpans where
  scope_attributes : List (String × String)
  spans : List RawSpan
deriving DecidableEq

/-- One `ResourceSpans` message. -/
structure ResourceSpans where
  resource_attributes : List (String × String)
  scope_spans : List ScopeSpans
deriving DecidableEq

/-- `ExportTraceServiceRequest`. -/
structure ExportTraceServiceRequest where
  resource_spans : List ResourceSpans
deriving DecidableEq

/-- `ExportTracePartialSuccess` (protobuf default: zero rejected spans,
empty error message). -/
structure ExportTracePartialSuccess where
  rejected_spans : Int
  error_message : String
deriving DecidableEq

/-- `ExportTracePartialSuccess::default()`. -/
def ExportTracePartialSuccess.default : ExportTracePartialSuccess :=
  { rejected_spans := 0, error_message := "" }

/-- `ExportTraceServiceResponse`. -/
structure ExportTraceServiceResponse where
  partial_success : Option ExportTracePartialSuccess
deriving DecidableEq

/-- `ExportTraceServiceResponse::default()`. -/
def ExportTraceServiceResponse.default : ExportTraceServiceResponse :=
  { partial_success := none }

/-- The rejected-span count a caller reads from the acknowledgment
(`res.partial_success.unwrap_or_default().rejected_spans`). -/
def rejectedSpansOf (res : ExportTraceServiceResponse) : Int :=
  (res.partial_success.getD ExportTracePartialSuccess.default).rejected_spans

/-- `datetime_from_nanos` of `Span::new` / the export handler: for every
`u64` nanosecond value the quotient `nanos / 1e9` is at most `1.9e10`
seconds (~year 2554), far inside `NaiveDateTime`'s range, so
`from_timestamp_opt` always succeeds; the resulting instant is the same
point of the nanosecond timeline. -/
def datetime_from_nanos (nanos : Nat) : Int := (nanos : Int)

/-- `Span::new(raw, attributes, resource_attributes, instrument_attributes)`
from `lib.rs`: the per-span fallible constructor.  Identifier length
mismatches produce `Err` for this span alone. -/
def Span.new (raw : RawSpan) (attributes resource_attributes instrument_attributes :
    List (String × String)) : Except String Span :=
  let start := datetime_from_nanos raw.start_time_unix_nano
  if raw.span_id.length = 8 then
    if raw.trace_id.length = 16 then
      if raw.parent_span_id.isEmpty ∨ raw.parent_span_id.length = 8 then
        .ok
          { Span.default with
            id := hexString (beBytesToNat raw.span_id)
            name := raw.name
            start := start
            duration_micros :=
              timestampMicros raw.end_time_unix_nano - timestampMicros raw.start_time_unix_nano
            trace_id := hexString (beBytesToNat raw.trace_id)
            parent_id :=
              if raw.parent_span_id.isEmpty then none
              else some (hexString (beBytesToNat raw.parent_span_id))
            attributes := attributes
            metadata := btreeExtend resource_attributes instrument_attributes }
      else .error "parent_span_id of 8 bytes"
    else .error "trace_id of 16 bytes"
  else .error "span_id of 8 bytes"

/-- The identifier-shape requirements of the wire format. -/
def RawSpan.wf (raw : RawSpan) : Prop :=
  raw.span_id.length = 8 ∧ raw.trace_id.length = 16 ∧
    (raw.parent_span_id = [] ∨ raw.parent_span_id.length = 8)

instance (raw : RawSpan) : Decidable raw.wf := by
  unfold RawSpan.wf; infer_instance

/-- The inline per-span conversion of the export handler.  The source uses
`expect` (a panic) at each length check; the panic is the `Except.error`
case, which aborts the whole handler. -/
def exportDecodeSpan (metadata : List (String × String)) (raw : RawSpan) :
    Except String Span :=
  if raw.span_id.length = 8 then
    if raw.trace_id.length = 16 then
      if raw.parent_span_id.isEmpty ∨ raw.parent_span_id.length = 8 then
        .ok
          { Span.default with
            id := hexString (beBytesToNat raw.span_id)
            name := raw.name
            start := datetime_from_nanos raw.start_time_unix_nano
            duration_micros :=
              timestampMicros raw.end_time_unix_nano - timestampMicros raw.start_time_unix_nano
            trace_id := hexString (beBytesToNat raw.trace_id)
            parent_id :=
              if raw.parent_span_id.isEmpty then none
              else some (hexString (beBytesToNat raw.parent_span_id))
            attributes := btreeOfList raw.attributes
            metadata := metadata }
      else .error "parent_span_id of 8 bytes"
    else .error "trace_id of 16 bytes"
  else .error "span_id of 8 bytes"

/-- The flattening of an export request into raw spans paired with their
inherited resource-plus-scope metadata (scope values win on collision). -/
def requestPairs (payload : ExportTraceServiceRequest) :
    List (RawSpan × List (String × String)) :=
  (payload.resource_spans.flatMap fun resource_span =>
      let metadata := btreeOfList resource_span.resource_attributes
      resource_span.scope_spans.map fun s => (s, metadata)).flatMap
    fun sm =>
      let metadata := btreeExtend sm.2 (btreeOfList sm.1.scope_attributes)
      sm.1.spans.map fun span => (span, metadata)

/-- `export_trace`: decode every raw span of the request (a panic on any
span aborts the handler), send the decoded batch downstream, and answer
with the default acknowledgment. -/
def export_trace (payload : ExportTraceServiceRequest) :
    Except String (List Span × ExportTraceServiceResponse) :=
  match mapExcept (fun rm => exportDecodeSpan rm.2 rm.1) (requestPairs payload) with
  | .error e => .error e
  | .ok spans => .ok (spans, ExportTraceServiceResponse.default)

/-- Total number of spans submitted in a request. -/
def totalSpans (payload : ExportTraceServiceRequest) : Nat :=
  (payload.resource_spans.map fun rs =>
      (rs.scope_spans.map fun ss => ss.spans.length).sum).sum

/-! ### Store-merge consumer (`crates/app/src/lib.rs`) -/

/-- `collect_spans_and_recalculate`: for each delivered batch, flatten
every span of every stored trace, append the new spans, rebuild via
`build_traces` and replace the store.  The source unwraps the rebuild
with `expect`; the error case is propagated here (it is unreachable,
since `build_traces` always returns `Ok`). -/
def collect_spans_and_recalculate (batches : List (List Span)) (traces : List Trace) :
    Except String (List Trace) :=
  match batches with
  | [] => .ok traces
  | spans :: rest =>
    let all_spans := (traces.map Trace.spans).flatten ++ spans
    match build_traces all_spans with
    | .error e => .error e
    | .ok traces' => collect_spans_and_recalculate rest traces'

/-! ### Concrete fixtures used by the witnesses and counterexamples -/

/-- A good span: id `…01`, fresh trace, root. -/
def rawOkA : RawSpan :=
  { trace_id := List.replicate 16 0, span_id := [0, 0, 0, 0, 0, 0, 0, 1]
    parent_span_id := [], name := "a", start_time_unix_nano := 0
    end_time_unix_nano := 1000, attributes := [] }

/-- A span whose `span_id` has only 7 bytes. -/
def rawBad7 : RawSpan :=
  { trace_id := List.replicate 16 0, span_id := [0, 0, 0, 0, 0, 0, 2]
    parent_span_id := [], name := "b", start_time_unix_nano := 0
    end_time_unix_nano := 1000, attributes := [] }

/-- Another good span. -/
def rawOkC : RawSpan :=
  { trace_id := List.replicate 16 0, span_id := [0, 0, 0, 0, 0, 0, 0, 3]
    parent_span_id := [0, 0, 0, 0, 0, 0, 0, 1], name := "c", start_time_unix_nano := 0
    end_time_unix_nano := 1000, attributes := [] }

/-- A batch of three spans whose second span has a 7-byte `span_id`. -/
def reqBad7 : ExportTraceServiceRequest :=
  { resource_spans :=
      [{ resource_attributes := []
         scope_spans := [{ scope_attributes := [], spans := [rawOkA, rawBad7, rawOkC] }] }] }

/-- A batch of two well-formed spans (root plus child). -/
def reqGood : ExportTraceServiceRequest :=
  { resource_spans :=
      [{ resource_attributes := []
         scope_spans := [{ scope_attributes := [], spans := [rawOkA, rawOkC] }] }] }

/-- A toy line codec for the witness: only the literal line `"bad"` fails. -/
def toyDecodeLine (l : String) : Except String OtelSpan :=
  if l = "bad" then .error "expected value"
  else
    .ok
      { name := l, context := ⟨"t", l⟩, parent := ⟨"0", ""⟩, startTime := 0, endTime := 0
        attributes := none, status := ⟨"Unset", ""⟩, resource := []
        library := ⟨"", "", ""⟩ }

/-- A root span whose id bytes are `[0,0,0,0,0,0,0,1]` and whose trace id
bytes are sixteen zero bytes. -/
def rawWire1 : RawSpan :=
  { trace_id := List.replicate 16 0, span_id := [0, 0, 0, 0, 0, 0, 0, 1]
    parent_span_id := [], name := "w", start_time_unix_nano := 0
    end_time_unix_nano := 0, attributes := [] }

/-- A file-format span whose end time lies astronomically far from its
start: the microsecond difference exceeds `i64::MAX`. -/
def extremeOtelSpan : OtelSpan :=
  { name := "x", context := ⟨"t", "s"⟩, parent := ⟨"0", ""⟩
    startTime := 0, endTime := (2 ^ 63) * 1000
    attributes := none, status := ⟨"Unset", ""⟩, resource := [], library := ⟨"", "", ""⟩ }

/-! ### General lemmas about `mapExcept` -/

/-- If every element converts, `mapExcept` succeeds with one output per input. -/
theorem mapExcept_all_ok {α β : Type} (f : α → Except String β) (l : List α)
    (h : ∀ x ∈ l, ∃ y, f x = .ok y) :
    ∃ ys, mapExcept f l = .ok ys ∧ ys.length = l.length := by
  induction l with
  | nil => exact ⟨[], rfl, rfl⟩
  | cons x xs ih =>
    obtain ⟨y, hy⟩ := h x (by simp)
    obtain ⟨ys, hys, hlen⟩ := ih fun a ha => h a (by simp [ha])
    exact ⟨y :: ys, by simp [mapExcept, hy, hys], by simp [hlen]⟩

/-- `mapExcept` stops at the first failing element and reports its error. -/
theorem mapExcept_first_error {α β : Type} (f : α → Except String β) (l : List α)
    (i : Nat) (x : α) (e : String) (hx : l[i]? = some x) (he : f x = .error e)
    (hok : ∀ j y, j < i → l[j]? = some y → ∃ v, f y = .ok v) :
    mapExcept f l = .error e := by
  induction l generalizing i with
  | nil => simp at hx
  | cons a as ih =>
    cases i with
    | zero =>
      simp only [List.getElem?_cons_zero, Option.some.injEq] at hx
      subst hx
      simp [mapExcept, he]
    | succ i =>
      simp only [List.getElem?_cons_succ] at hx
      obtain ⟨v, hv⟩ := hok 0 a (Nat.succ_pos i) (by simp)
      have htail := ih i hx fun j y hj hy =>
        hok (j + 1) y (Nat.succ_lt_succ hj) (by simpa using hy)
      simp [mapExcept, hv, htail]

/-! ### C3: the store-merge consumer -/

/-- The number of spans in a request equals the number of decode jobs. -/
theorem length_requestPairs (payload : ExportTraceServiceRequest) :
    (requestPairs payload).length = totalSpans payload := by
  simp [requestPairs, totalSpans, List.length_flatMap, Function.comp_def,
    List.map_flatMap, List.flatMap_def, List.sum_flatten, List.map_map]

/-- C3: for every delivered batch the consumer flattens all spans of all
stored traces together with the new spans, rebuilds via the trace
assembler over the union, and wholesale-replaces the store with the
result; it succeeds on every batch (the assembler never returns an error,
so the rebuild-failure branch is unreachable) and therefore keeps
processing every subsequent batch of the stream. -/
theorem consumer_rebuilds_and_replaces_store (batches : List (List Span))
    (traces : List Trace) :
    collect_spans_and_recalculate batches traces =
      .ok (batches.foldl
        (fun store spans => buildTracesList ((store.map Trace.spans).flatten ++ spans))
        traces) := by
  induction batches generalizing traces with
  | nil => rfl
  | cons b rest ih => simp [collect_spans_and_recalculate, build_traces, ih]

/-! ### C1: acknowledgment semantics of the export handler -/

/-- A well-formed raw span decodes successfully in the export handler. -/
theorem exportDecodeSpan_ok_of_wf (metadata : List (String × String)) (raw : RawSpan)
    (h : raw.wf) : ∃ s, exportDecodeSpan metadata raw = .ok s := by
  obtain ⟨h8, h16, hp⟩ := h
  have hp' : raw.parent_span_id.isEmpty = true ∨ raw.parent_span_id.length = 8 := by
    rcases hp with hp | hp
    · exact Or.inl (by simp [hp])
    · exact Or.inr hp
  unfold exportDecodeSpan
  rw [if_pos h8, if_pos h16, if_pos hp']
  exact ⟨_, rfl⟩

/-- C1 (amended): the export handler offers no partial success.  When every
submitted span is well-formed, all of them are decoded and delivered
downstream and the acknowledgment is the protobuf default, whose
rejected-span count reads as `0`, so `rejected + delivered = total`
degenerates to `delivered = total`.  (When any span is malformed the
handler aborts as a whole — see the counterexample.) -/
theorem export_trace_no_partial_success (payload : ExportTraceServiceRequest)
    (hwf : ∀ rm ∈ requestPairs payload, rm.1.wf) :
    ∃ spans, export_trace payload = .ok (spans, ExportTraceServiceResponse.default) ∧
      rejectedSpansOf ExportTraceServiceResponse.default = 0 ∧
      spans.length = totalSpans payload := by
  obtain ⟨ys, hys, hlen⟩ :=
    mapExcept_all_ok (fun rm => exportDecodeSpan rm.2 rm.1) (requestPairs payload)
      fun rm hrm => exportDecodeSpan_ok_of_wf rm.2 rm.1 (hwf rm hrm)
  refine ⟨ys, ?_, rfl, by rw [hlen, length_requestPairs]⟩
  simp [export_trace, hys]

/-- C1 counterexample: on a batch of 3 spans whose second has a 7-byte
`span_id`, the export handler does not reject only that span — it aborts
the whole batch (the source panics at the `expect`), delivers nothing
downstream, and produces no acknowledgment reporting `rejected_spans == 1`
with 2 spans delivered. -/
theorem export_trace_aborts_on_bad_span :
    totalSpans reqBad7 = 3 ∧ export_trace reqBad7 = .error "span_id of 8 bytes" := by
  constructor
  · rfl
  · rfl

/-- Witness for the amended C1 theorem at a concrete well-formed batch. -/
theorem export_trace_no_partial_success_witness :
    (∀ rm ∈ requestPairs reqGood, rm.1.wf) ∧
    ∃ spans, export_trace reqGood = .ok (spans, ExportTraceServiceResponse.default) ∧
      rejectedSpansOf ExportTraceServiceResponse.default = 0 ∧
      spans.length = totalSpans reqGood :=
  ⟨by decide, export_trace_no_partial_success reqGood (by decide)⟩

/-! ### C8: all-or-nothing file loading -/

/-- C8: if the first failing line of the file is line `i` (0-based) then
the whole load fails with an error naming the 1-based line number `i + 1`
and the underlying cause, and no spans are returned. -/
theorem parse_file_fails_on_first_bad_line (decodeLine : String → Except String OtelSpan)
    (contents : String) (i : Nat) (line e : String)
    (hline : (splitLines contents)[i]? = some line)
    (herr : decodeLine line = .error e)
    (hok : ∀ j y, j < i → (splitLines contents)[j]? = some y → ∃ v, decodeLine y = .ok v) :
    parse_file decodeLine contents =
      .error ("unable to parse line " ++ toString (i + 1) ++ ": " ++ e) := by
  have henum : (splitLines contents).enum[i]? = some (i, line) := by
    rw [List.getElem?_enum, hline]; rfl
  have hmain :
      mapExcept
        (fun il =>
          (decodeLine il.2).mapError
            (fun e => "unable to parse line " ++ toString (il.1 + 1) ++ ": " ++ e))
        (splitLines contents).enum =
        .error ("unable to parse line " ++ toString (i + 1) ++ ": " ++ e) := by
    refine mapExcept_first_error _ _ i (i, line)
      ("unable to parse line " ++ toString (i + 1) ++ ": " ++ e) henum ?_ ?_
    · dsimp only
      rw [herr]
      rfl
    · intro j y hj hy
      rw [List.getElem?_enum] at hy
      match hl : (splitLines contents)[j]? with
      | none => rw [hl] at hy; simp at hy
      | some l' =>
        rw [hl] at hy
        simp only [Option.map] at hy
        cases hy
        obtain ⟨v, hv⟩ := hok j l' hj hl
        exact ⟨v, by dsimp only; rw [hv]; rfl⟩
  simp [parse_file, hmain]

/-- Witness: loading a 3-line file whose second line is malformed fails the
whole load and reports line `2`. -/
theorem parse_file_fails_on_first_bad_line_witness :
    parse_file toyDecodeLine "ok1\nbad\nok2" = .error "unable to parse line 2: expected value" :=
  parse_file_fails_on_first_bad_line toyDecodeLine "ok1\nbad\nok2" 1 "bad" "expected value"
    (by decide) (by decide)
    (by
      intro j y hj hy
      have hj0 : j = 0 := by omega
      subst hj0
      rw [show (splitLines "ok1\nbad\nok2")[0]? = some "ok1" by decide] at hy
      cases hy
      exact ⟨_, rfl⟩)

/-! ### C9: identifier derivation of the protocol decoder -/

/-- C9: the per-span constructor `Span::new` derives identifiers exactly
as specified: an 8-byte `span_id` becomes the lowercase hex rendering of
its big-endian 64-bit value, a 16-byte `trace_id` likewise (128-bit), an
empty `parent_span_id` means root, a nonempty one must be 8 bytes; any
other length is a decode failure for that span alone, with the matching
message. -/
theorem span_new_identifier_derivation (raw : RawSpan)
    (attributes resource_attributes instrument_attributes : List (String × String)) :
    (raw.wf →
      Span.new raw attributes resource_attributes instrument_attributes =
        .ok { Span.default with
          id := hexString (beBytesToNat raw.span_id)
          name := raw.name
          start := datetime_from_nanos raw.start_time_unix_nano
          duration_micros :=
            timestampMicros raw.end_time_unix_nano - timestampMicros raw.start_time_unix_nano
          trace_id := hexString (beBytesToNat raw.trace_id)
          parent_id :=
            if raw.parent_span_id.isEmpty then none
            else some (hexString (beBytesToNat raw.parent_span_id))
          attributes := attributes
          metadata := btreeExtend resource_attributes instrument_attributes }) ∧
    (raw.span_id.length ≠ 8 →
      Span.new raw attributes resource_attributes instrument_attributes =
        .error "span_id of 8 bytes") ∧
    (raw.span_id.length = 8 → raw.trace_id.length ≠ 16 →
      Span.new raw attributes resource_attributes instrument_attributes =
        .error "trace_id of 16 bytes") ∧
    (raw.span_id.length = 8 → raw.trace_id.length = 16 → raw.parent_span_id ≠ [] →
      raw.parent_span_id.length ≠ 8 →
      Span.new raw attributes resource_attributes instrument_attributes =
        .error "parent_span_id of 8 bytes") := by
  refine ⟨?_, ?_, ?_, ?_⟩
  · rintro ⟨h8, h16, hp⟩
    have hp' : raw.parent_span_id.isEmpty = true ∨ raw.parent_span_id.length = 8 := by
      rcases hp with hp | hp
      · exact Or.inl (by simp [hp])
      · exact Or.inr hp
    unfold Span.new
    rw [if_pos h8, if_pos h16, if_pos hp']
  · intro h8
    unfold Span.new
    rw [if_neg h8]
  · intro h8 h16
    unfold Span.new
    rw [if_pos h8, if_neg h16]
  · intro h8 h16 hne hlen
    have hp' : ¬(raw.parent_span_id.isEmpty = true ∨ raw.parent_span_id.length = 8) := by
      rintro (h | h)
      · exact hne (by simpa using h)
      · exact hlen h
    unfold Span.new
    rw [if_pos h8, if_pos h16, if_neg hp']

/-- Witness: span-id bytes `[0,…,0,1]` render as `"1"` and an all-zero
trace id renders as `"0"`. -/
theorem span_new_identifier_derivation_witness :
    rawWire1.wf ∧
    Span.new rawWire1 [] [] [] =
      .ok { Span.default with id := "1", name := "w", trace_id := "0" } := by
  refine ⟨by decide, ?_⟩
  have h := (span_new_identifier_derivation rawWire1 [] [] []).1 (by decide)
  rw [h]
  decide

/-! ### C10: checked microsecond conversions default to zero -/

/-- C10: when the whole-microsecond difference of two timestamps leaves
the signed 64-bit range, `num_microseconds` yields `none` and both users
of the checked conversion — the file-batch decoder's `duration_micros`
and the assembler's per-descendant `offset_micros` (the `setOffset` step
of `Trace::new`) — silently produce `0` instead of an error. -/
theorem micros_overflow_defaults_to_zero (v : OtelSpan) (root s : Span)
    (hdur : ¬(i64Min ≤ truncDiv1000 (v.endTime - v.startTime) ∧
      truncDiv1000 (v.endTime - v.startTime) ≤ i64Max))
    (hoff : ¬(i64Min ≤ truncDiv1000 (s.start - root.start) ∧
      truncDiv1000 (s.start - root.start) ≤ i64Max)) :
    num_microseconds (v.endTime - v.startTime) = none ∧
      (otelSpanToSpan v).duration_micros = 0 ∧
      num_microseconds (s.start - root.start) = none ∧
      (setOffset root s).offset_micros = 0 := by
  have h1 : num_microseconds (v.endTime - v.startTime) = none := by
    simp only [num_microseconds, if_neg hdur]
  have h2 : num_microseconds (s.start - root.start) = none := by
    simp only [num_microseconds, if_neg hoff]
  exact ⟨h1, by simp [otelSpanToSpan, h1], h2, by simp [setOffset, h2]⟩

/-- Witness: an extreme timestamp pair produces duration `0` and offset `0`. -/
theorem micros_overflow_defaults_to_zero_witness :
    (otelSpanToSpan extremeOtelSpan).duration_micros = 0 ∧
      (setOffset { Span.default with start := 0 }
          { Span.default with id := "d", start := (2 ^ 63) * 1000 }).offset_micros = 0 := by
  have h := micros_overflow_defaults_to_zero extremeOtelSpan
    { Span.default with start := 0 } { Span.default with id := "d", start := (2 ^ 63) * 1000 }
    (by decide) (by decide)
  exact ⟨h.2.1, h.2.2.2⟩

/-! ### Association-list lemmas -/

/-- Pushing onto an entry appends to that key's list. -/
theorem lookupA_pushEntry_self {β : Type} (k : String) (x : β) (m : List (String × List β)) :
    lookupA k (pushEntry k x m) = some ((lookupA k m).getD [] ++ [x]) := by
  induction m with
  | nil => simp [pushEntry, lookupA]
  | cons kv t ih =>
    obtain ⟨k', xs⟩ := kv
    by_cases h : k' = k
    · subst h
      simp [pushEntry, lookupA]
    · simp [pushEntry, lookupA, h, ih]

/-- Pushing onto an entry leaves other keys untouched. -/
theorem lookupA_pushEntry_ne {β : Type} (k k' : String) (x : β)
    (m : List (String × List β)) (h : k ≠ k') :
    lookupA k' (pushEntry k x m) = lookupA k' m := by
  induction m with
  | nil => simp [pushEntry, lookupA, h]
  | cons kv t ih =>
    obtain ⟨k₀, xs⟩ := kv
    by_cases h0 : k₀ = k
    · subst h0
      simp [pushEntry, lookupA, h]
    · simp [pushEntry, lookupA, h0, ih]

/-- Grouping spans by trace id accumulates, per key, exactly the filter of
the processed spans in submission order. -/
theorem lookupA_groupFold (l : List Span) (m : List (String × List Span)) (k : String) :
    (lookupA k (l.foldl (fun m s => pushEntry s.trace_id s m) m)).getD [] =
      (lookupA k m).getD [] ++ l.filter fun s => s.trace_id == k := by
  induction l generalizing m with
  | nil => simp
  | cons s t ih =>
    rw [List.foldl_cons, ih]
    by_cases h : s.trace_id = k
    · subst h
      simp [List.filter_cons, lookupA_pushEntry_self]
    · simp [List.filter_cons, h, lookupA_pushEntry_ne _ _ _ _ h]

/-- The parent-to-children fold accumulates, per parent key, the ids of
the spans naming that parent, in iteration order. -/
theorem lookupA_connFold (vals : List Span) (m : List (String × List String)) (p : String) :
    (lookupA p (vals.foldl
        (fun m s =>
          match s.parent_id with
          | some q => pushEntry q s.id m
          | none => m) m)).getD [] =
      (lookupA p m).getD [] ++ (vals.filter fun s => s.parent_id == some p).map Span.id := by
  induction vals generalizing m with
  | nil => simp
  | cons s t ih =>
    rw [List.foldl_cons, ih]
    cases hpar : s.parent_id with
    | none => simp [List.filter_cons, hpar]
    | some q =>
      by_cases h : q = p
      · subst h
        simp [List.filter_cons, hpar, lookupA_pushEntry_self]
      · simp [List.filter_cons, hpar, h, lookupA_pushEntry_ne _ _ _ _ h]

/-- The child index of node `p` is the ids of the spans naming parent `p`. -/
theorem lookupA_connectionsOf (vals : List Span) (p : String) :
    (lookupA p (connectionsOf vals)).getD [] =
      (vals.filter fun s => s.parent_id == some p).map Span.id := by
  have h := lookupA_connFold vals [] p
  simpa [connectionsOf, lookupA] using h

/-- Everything in an updated map is the new pair or an old entry. -/
theorem mem_insertA {β : Type} {kv : String × β} (k : String) (v : β)
    (m : List (String × β)) (h : kv ∈ insertA k v m) : kv = (k, v) ∨ kv ∈ m := by
  induction m with
  | nil => simpa [insertA] using h
  | cons kv' t ih =>
    obtain ⟨k', v'⟩ := kv'
    by_cases hk : k' = k
    · subst hk
      rcases (by simpa [insertA] using h : kv = (k', v) ∨ kv ∈ t) with h1 | h1
      · exact Or.inl h1
      · exact Or.inr (by simp [h1])
    · rcases (by simpa [insertA, hk] using h : kv = (k', v') ∨ kv ∈ insertA k v t) with h1 | h1
      · exact Or.inr (by simp [h1])
      · rcases ih h1 with h2 | h2
        · exact Or.inl h2
        · exact Or.inr (by simp [h2])

/-- `keysA` of a cons. -/
theorem keysA_cons {β : Type} (kv : String × β) (m : List (String × β)) :
    keysA (kv :: m) = kv.1 :: keysA m := rfl

/-- `keysA` of an append. -/
theorem keysA_append {β : Type} (m l : List (String × β)) :
    keysA (m ++ l) = keysA m ++ keysA l := by
  simp [keysA]

/-- Key list of an insertion: unchanged for a present key, appended else. -/
theorem keysA_insertA {β : Type} (k : String) (v : β) (m : List (String × β)) :
    keysA (insertA k v m) = if k ∈ keysA m then keysA m else keysA m ++ [k] := by
  induction m with
  | nil => simp [insertA, keysA]
  | cons kv t ih =>
    obtain ⟨k', v'⟩ := kv
    by_cases hk : k' = k
    · subst hk
      simp [insertA, keysA]
    · have h1 : insertA k v ((k', v') :: t) = (k', v') :: insertA k v t := by
        simp [insertA, hk]
      rw [h1, keysA_cons, keysA_cons, ih]
      by_cases hmem : k ∈ keysA t
      · simp [hmem, Ne.symm hk]
      · simp [hmem, Ne.symm hk]

/-- Inserting a fresh key appends the pair. -/
theorem insertA_of_not_mem {β : Type} (k : String) (v : β) (m : List (String × β))
    (h : k ∉ keysA m) : insertA k v m = m ++ [(k, v)] := by
  induction m with
  | nil => simp [insertA]
  | cons kv t ih =>
    obtain ⟨k', v'⟩ := kv
    have hk : k' ≠ k := by
      intro e
      exact h (by rw [keysA_cons, e]; exact List.mem_cons_self k (keysA t))
    have ht : k ∉ keysA t := by
      intro e
      exact h (by rw [keysA_cons]; exact List.mem_cons_of_mem _ e)
    simp [insertA, hk, ih ht]

/-- A lookup hit is a member of the map. -/
theorem mem_of_lookupA {β : Type} (k : String) (v : β) (m : List (String × β))
    (h : lookupA k m = some v) : (k, v) ∈ m := by
  induction m with
  | nil => simp [lookupA] at h
  | cons kv t ih =>
    obtain ⟨k', v'⟩ := kv
    by_cases hk : k' = k
    · subst hk
      simp [lookupA] at h
      simp [h]
    · simp [lookupA, hk] at h
      simp [ih h]

/-- The id-keyed map has distinct keys, each the id of its value. -/
theorem mapWf_foldl_insert (l : List Span) (m : List (String × Span)) (h : MapWf m) :
    MapWf (l.foldl (fun m s => insertA s.id s m) m) := by
  induction l generalizing m with
  | nil => exact h
  | cons s t ih =>
    refine ih _ ⟨?_, ?_⟩
    · by_cases hmem : s.id ∈ keysA m
      · rw [keysA_insertA, if_pos hmem]; exact h.1
      · rw [keysA_insertA, if_neg hmem, List.nodup_append]
        exact ⟨h.1, List.nodup_singleton _, fun a ha hb => by
          rw [List.mem_singleton] at hb; subst hb; exact hmem ha⟩
    · intro kv hkv
      rcases mem_insertA _ _ _ hkv with h1 | h1
      · subst h1; rfl
      · exact h.2 kv h1

/-- `MapWf` holds for every id-keyed span map. -/
theorem mapWf_spansMapOf (l : List Span) : MapWf (spansMapOf l) :=
  mapWf_foldl_insert l [] ⟨List.nodup_nil, by simp⟩

/-- Every entry of the fold is an old entry or carries an inserted span. -/
theorem mem_foldl_insert (l : List Span) (m : List (String × Span)) :
    ∀ kv ∈ l.foldl (fun m s => insertA s.id s m) m, kv ∈ m ∨ kv.2 ∈ l := by
  induction l generalizing m with
  | nil => exact fun kv h => Or.inl h
  | cons s t ih =>
    intro kv h
    rcases ih (insertA s.id s m) kv h with h1 | h1
    · rcases mem_insertA _ _ _ h1 with h2 | h2
      · right; simp [h2]
      · exact Or.inl h2
    · right; simp [h1]

/-- Values of the id-keyed map come from the inserted list. -/
theorem mem_valuesA_spansMapOf (l : List Span) :
    ∀ v ∈ valuesA (spansMapOf l), v ∈ l := by
  intro v hv
  obtain ⟨kv, hkv, hsnd⟩ := List.mem_map.mp hv
  rcases mem_foldl_insert l [] kv hkv with h | h
  · simp at h
  · rw [← hsnd]; exact h

/-- With fresh, pairwise-distinct ids, the fold is plain pairing. -/
theorem foldl_insert_eq_append (l : List Span) (m : List (String × Span))
    (hdisj : ∀ s ∈ l, s.id ∉ keysA m) (hnodup : (l.map Span.id).Nodup) :
    l.foldl (fun m s => insertA s.id s m) m = m ++ l.map fun s => (s.id, s) := by
  induction l generalizing m with
  | nil => simp
  | cons s t ih =>
    rw [List.foldl_cons, insertA_of_not_mem _ _ _ (hdisj s (by simp))]
    rw [ih (m ++ [(s.id, s)]) ?_ (by simpa using hnodup.of_cons)]
    · simp
    · intro u hu
      have h1 : u.id ≠ s.id := by
        intro e
        have : s.id ∈ t.map Span.id := e ▸ List.mem_map_of_mem Span.id hu
        exact (List.nodup_cons.mp (by simpa using hnodup)).1 this
      have h2 : u.id ∉ keysA m := hdisj u (by simp [hu])
      rw [keysA_append, List.mem_append]
      rintro (hc | hc)
      · exact h2 hc
      · exact h1 (by simpa [keysA] using hc)

/-- With pairwise-distinct ids the id-keyed map is plain pairing. -/
theorem spansMapOf_eq_map (l : List Span) (h : (l.map Span.id).Nodup) :
    spansMapOf l = l.map fun s => (s.id, s) := by
  simpa [spansMapOf] using foldl_insert_eq_append l [] (by simp [keysA]) h

/-- Rebuilding the id-keyed map from its own values is the identity. -/
theorem spansMapOf_valuesA (m : List (String × Span)) (h : MapWf m) :
    spansMapOf (valuesA m) = m := by
  have hkeys : (valuesA m).map Span.id = keysA m := by
    unfold valuesA keysA
    rw [List.map_map]
    exact List.map_congr_left fun kv hkv => (h.2 kv hkv).symm
  rw [spansMapOf_eq_map _ (hkeys ▸ h.1)]
  unfold valuesA
  rw [List.map_map]
  conv_rhs => rw [← List.map_id m]
  refine List.map_congr_left fun kv hkv => ?_
  have hkv1 := h.2 kv hkv
  simp only [Function.comp_apply, id_eq]
  exact Prod.ext (by simpa using hkv1.symm) rfl

/-! ### Lookup characterizations and the children equation -/

/-- Looking up a member's id in the paired list finds that member. -/
theorem lookupA_map_pair_self (l : List Span) (h : (l.map Span.id).Nodup)
    (s : Span) (hs : s ∈ l) :
    lookupA s.id (l.map fun t => (t.id, t)) = some s := by
  induction l with
  | nil => cases hs
  | cons a t ih =>
    rcases List.mem_cons.mp hs with h1 | h1
    · subst h1
      simp [lookupA]
    · have hne : a.id ≠ s.id := by
        intro e
        have hmem : s.id ∈ t.map Span.id := List.mem_map_of_mem Span.id h1
        exact (List.nodup_cons.mp (by simpa using h)).1 (e ▸ hmem)
      simp only [List.map_cons, lookupA, if_neg hne]
      exact ih (by simpa using (by simpa using h : (a.id :: t.map Span.id).Nodup).of_cons) h1

/-- With distinct ids, looking a member's id up in the id-keyed map finds
that member. -/
theorem lookupA_spansMapOf_self (vals : List Span) (h : (vals.map Span.id).Nodup)
    (s : Span) (hs : s ∈ vals) :
    lookupA s.id (spansMapOf vals) = some s := by
  rw [spansMapOf_eq_map _ h]
  exact lookupA_map_pair_self vals h s hs

/-- A hit in the id-keyed map is a member carrying the looked-up id. -/
theorem lookupA_spansMapOf_mem (vals : List Span) (k : String) (s : Span)
    (h : lookupA k (spansMapOf vals) = some s) : s ∈ vals ∧ s.id = k := by
  have hmem := mem_of_lookupA k s _ h
  have hwf := mapWf_spansMapOf vals
  refine ⟨?_, (hwf.2 _ hmem).symm⟩
  have : s ∈ valuesA (spansMapOf vals) := by
    exact List.mem_map.mpr ⟨(k, s), hmem, rfl⟩
  exact mem_valuesA_spansMapOf vals s this

/-- An id carried by no value misses the id-keyed map. -/
theorem lookupA_spansMapOf_none (vals : List Span) (k : String)
    (h : k ∉ vals.map Span.id) : lookupA k (spansMapOf vals) = none := by
  cases hl : lookupA k (spansMapOf vals) with
  | none => rfl
  | some s =>
    obtain ⟨hs, hid⟩ := lookupA_spansMapOf_mem vals k s hl
    exact absurd (hid ▸ List.mem_map_of_mem Span.id hs) h

/-- Recovering spans from their ids through the id-keyed map. -/
theorem filterMap_lookup_map_id (vals : List Span) (h : (vals.map Span.id).Nodup)
    (l' : List Span) (hsub : ∀ s ∈ l', s ∈ vals) :
    (l'.map Span.id).filterMap (fun cid => lookupA cid (spansMapOf vals)) = l' := by
  induction l' with
  | nil => rfl
  | cons a t ih =>
    simp only [List.map_cons, List.filterMap_cons]
    rw [lookupA_spansMapOf_self vals h a (hsub a (by simp))]
    rw [ih fun s hs => hsub s (by simp [hs])]

/-- The children list at node `id` is the start-sorted filter of the
values naming parent `id`. -/
theorem childrenAt_eq (vals : List Span) (h : (vals.map Span.id).Nodup) (id : String) :
    childrenAt vals id =
      List.insertionSort spanLe (vals.filter fun s => s.parent_id == some id) := by
  unfold childrenAt
  rw [lookupA_connectionsOf,
    filterMap_lookup_map_id vals h _ fun s hs => (List.mem_filter.mp hs).1]

/-- Membership in the children list. -/
theorem childrenAt_mem (vals : List Span) (h : (vals.map Span.id).Nodup) (id : String)
    (c : Span) : c ∈ childrenAt vals id ↔ c ∈ vals ∧ c.parent_id = some id := by
  rw [childrenAt_eq vals h id]
  rw [(List.perm_insertionSort spanLe _).mem_iff, List.mem_filter]
  simp

/-- The children list is sorted by start. -/
theorem childrenAt_sorted (vals : List Span) (id : String) :
    List.Sorted spanLe (childrenAt vals id) :=
  List.sorted_insertionSort spanLe _

/-- The children list has pairwise-distinct ids. -/
theorem childrenAt_ids_nodup (vals : List Span) (h : (vals.map Span.id).Nodup)
    (id : String) : ((childrenAt vals id).map Span.id).Nodup := by
  rw [childrenAt_eq vals h id]
  refine List.Nodup.perm ?_ (List.Perm.map Span.id (List.perm_insertionSort spanLe _)).symm
  exact ((List.filter_sublist vals).map Span.id).nodup h

/-! ### The shape of `build_tree_vec` -/

/-- The accumulator is only ever extended on the right. -/
theorem build_tree_vec_acc (fuel : Nat) (id : String)
    (conn : List (String × List String)) (sm : List (String × Span))
    (acc : List Span) (lvl : Nat) :
    build_tree_vec fuel id conn sm acc lvl =
      acc ++ build_tree_vec fuel id conn sm [] lvl := by
  cases fuel with
  | zero => simp [build_tree_vec]
  | succ f =>
    unfold build_tree_vec
    cases lookupA id conn <;> simp

/-- Folding the per-child recursion is a `flatMap` of blocks. -/
theorem emit_foldl (vals : List Span) (fuel lvl : Nat) (cs : List Span) (m : List Span) :
    cs.foldl
      (fun m child =>
        build_tree_vec fuel child.id (connectionsOf vals) (spansMapOf vals)
          (m ++ [{ child with level := lvl + 1 }]) (lvl + 1)) m =
    m ++ cs.flatMap fun c =>
      { c with level := lvl + 1 } :: emitAux vals fuel c.id (lvl + 1) := by
  induction cs generalizing m with
  | nil => simp
  | cons c cs ih =>
    rw [List.foldl_cons, ih, build_tree_vec_acc]
    simp [emitAux]

/-- One step of emission: the sorted children, each followed by its block. -/
theorem emitAux_succ (vals : List Span) (fuel : Nat) (id : String) (lvl : Nat) :
    emitAux vals (fuel + 1) id lvl =
      (childrenAt vals id).flatMap fun c =>
        { c with level := lvl + 1 } :: emitAux vals fuel c.id (lvl + 1) := by
  cases h : lookupA id (connectionsOf vals) with
  | none =>
    have hl : emitAux vals (fuel + 1) id lvl = [] := by
      conv_lhs => unfold emitAux build_tree_vec
      simp [h]
    rw [hl]
    unfold childrenAt
    simp [h]
  | some childIds =>
    have hl : emitAux vals (fuel + 1) id lvl =
        (List.insertionSort spanLe
            (childIds.filterMap fun cid => lookupA cid (spansMapOf vals))).foldl
          (fun m child =>
            build_tree_vec fuel child.id (connectionsOf vals) (spansMapOf vals)
              (m ++ [{ child with level := lvl + 1 }]) (lvl + 1)) [] := by
      conv_lhs => unfold emitAux build_tree_vec
      simp [h]
    rw [hl, emit_foldl]
    unfold childrenAt
    simp [h]

/-- Fuel zero emits nothing. -/
theorem emitAux_zero (vals : List Span) (id : String) (lvl : Nat) :
    emitAux vals 0 id lvl = [] := rfl

/-! ### Decomposing `Trace::new` and `build_traces` -/

/-- The value list of the descendant map has pairwise-distinct ids. -/
theorem traceVals_ids_nodup (root : Span) (d : List Span) :
    ((traceVals root d).map Span.id).Nodup := by
  have hwf := mapWf_spansMapOf (d.map (setOffset root))
  have hkeys : (traceVals root d).map Span.id = keysA (spansMapOf (d.map (setOffset root))) := by
    unfold traceVals valuesA keysA
    rw [List.map_map]
    exact List.map_congr_left fun kv hkv => (hwf.2 kv hkv).symm
  rw [hkeys]
  exact hwf.1

/-- Members of the value list come from the offset-stamped descendants. -/
theorem traceVals_mem (root : Span) (d : List Span) :
    ∀ v ∈ traceVals root d, ∃ g ∈ d, v = setOffset root g := by
  intro v hv
  have := mem_valuesA_spansMapOf (d.map (setOffset root)) v hv
  obtain ⟨g, hg, he⟩ := List.mem_map.mp this
  exact ⟨g, hg, he.symm⟩

/-- The assembled vector is the root followed by the emission below it. -/
theorem traceNew_spans (root : Span) (d : List Span) :
    (Trace.new root d).spans =
      root :: emitAux (traceVals root d) (d.length + 1) root.id 0 := by
  have hmap : spansMapOf (valuesA (spansMapOf (List.map (setOffset root) d))) =
      spansMapOf (List.map (setOffset root) d) :=
    spansMapOf_valuesA _ (mapWf_spansMapOf _)
  unfold Trace.new emitAux traceVals
  dsimp only
  rw [hmap, build_tree_vec_acc _ _ _ _ [root] 0]
  simp

/-- The trace id of an assembled trace is the root's trace id. -/
theorem traceNew_id (root : Span) (d : List Span) :
    (Trace.new root d).id = root.trace_id := rfl

/-- `build_traces` is a map over the roots, each paired with its group. -/
theorem buildTracesList_eq (spans : List Span) :
    buildTracesList spans =
      (spans.filter fun s => s.parent_id.isNone).map fun root =>
        Trace.new root (groupOf spans root.trace_id) := by
  unfold buildTracesList
  refine List.map_congr_left fun root _ => ?_
  congr 1
  have h := lookupA_groupFold (spans.filter fun s => !s.parent_id.isNone) [] root.trace_id
  simpa [groupOf, lookupA] using h

/-- With globally distinct span ids, the root's id is carried by no value
of its descendant map, giving the base of every ancestor path. -/
theorem path_base_of_nodup (spans : List Span) (hids : (spans.map Span.id).Nodup)
    (root : Span) (hroot : root ∈ spans) (hrp : root.parent_id = none) (tid : String) :
    Path (traceVals root (groupOf spans tid)) root.id [root.id] := by
  refine Path.base root.id ?_
  intro hmem
  obtain ⟨v, hv, hvid⟩ := List.mem_map.mp hmem
  obtain ⟨g, hg, he⟩ := traceVals_mem root (groupOf spans tid) v hv
  have hgs : g ∈ spans := by
    have h1 := (List.mem_filter.mp (List.mem_filter.mp hg).1).1
    exact h1
  have hgid : g.id = root.id := by
    rw [he] at hvid
    simpa [setOffset] using hvid
  have hinj := List.inj_on_of_nodup_map hids
  have : g = root := hinj hgs hroot hgid
  subst this
  have h2 := (List.mem_filter.mp (List.mem_filter.mp hg).1).2
  simp [hrp] at h2

/-! ### Membership and parent facts of the emission -/

/-- Everything emitted is a value of the descendant map with its level
reassigned. -/
theorem emitAux_mem (vals : List Span) (hvals : (vals.map Span.id).Nodup) :
    ∀ fuel id lvl, ∀ s ∈ emitAux vals fuel id lvl,
      ∃ v ∈ vals, ∃ l, s = { v with level := l } := by
  intro fuel
  induction fuel with
  | zero => intro id lvl s hs; simp [emitAux_zero] at hs
  | succ fuel ih =>
    intro id lvl s hs
    rw [emitAux_succ] at hs
    obtain ⟨c, hc, hs⟩ := List.mem_flatMap.mp hs
    have hcv := (childrenAt_mem vals hvals id c).mp hc
    rcases List.mem_cons.mp hs with h1 | h1
    · exact ⟨c, hcv.1, lvl + 1, h1⟩
    · exact ih c.id (lvl + 1) s h1

/-- Emitted ids are ids of the values. -/
theorem emitAux_ids_sub (vals : List Span) (hvals : (vals.map Span.id).Nodup)
    (fuel : Nat) (id : String) (lvl : Nat) :
    ∀ s ∈ emitAux vals fuel id lvl, s.id ∈ vals.map Span.id := by
  intro s hs
  obtain ⟨v, hv, l, he⟩ := emitAux_mem vals hvals fuel id lvl s hs
  have hid : s.id = v.id := by rw [he]
  rw [hid]
  exact List.mem_map_of_mem Span.id hv

/-- Every emitted span's parent is the node it hangs below: the node id
itself or an id emitted alongside it. -/
theorem emitAux_parent (vals : List Span) (hvals : (vals.map Span.id).Nodup) :
    ∀ fuel id lvl, ∀ s ∈ emitAux vals fuel id lvl,
      ∃ q, s.parent_id = some q ∧
        (q = id ∨ q ∈ (emitAux vals fuel id lvl).map Span.id) := by
  intro fuel
  induction fuel with
  | zero => intro id lvl s hs; simp [emitAux_zero] at hs
  | succ fuel ih =>
    intro id lvl s hs
    rw [emitAux_succ] at hs
    obtain ⟨c, hc, hsc⟩ := List.mem_flatMap.mp hs
    have hcv := (childrenAt_mem vals hvals id c).mp hc
    rcases List.mem_cons.mp hsc with h1 | h1
    · refine ⟨id, ?_, Or.inl rfl⟩
      rw [h1]
      exact hcv.2
    · obtain ⟨q, hq, hcase⟩ := ih c.id (lvl + 1) s h1
      refine ⟨q, hq, Or.inr ?_⟩
      rw [emitAux_succ]
      rcases hcase with h2 | h2
      · refine List.mem_map.mpr ⟨{ c with level := lvl + 1 }, ?_, h2.symm⟩
        exact List.mem_flatMap.mpr ⟨c, hc, List.mem_cons_self _ _⟩
      · obtain ⟨x, hx, hxid⟩ := List.mem_map.mp h2
        refine List.mem_map.mpr ⟨x, ?_, hxid⟩
        exact List.mem_flatMap.mpr ⟨c, hc, List.mem_cons_of_mem _ hx⟩

/-! ### Ancestor-path lemmas -/

/-- An ancestor path starts at its node. -/
theorem path_head (vals : List Span) (id : String) (A : List String)
    (h : Path vals id A) : ∃ A', A = id :: A' := by
  cases h with
  | base k hk => exact ⟨[], rfl⟩
  | step k p A s hs hid hparent hA hnew => exact ⟨A, rfl⟩

/-- An ancestor path has pairwise-distinct entries. -/
theorem path_nodup (vals : List Span) (id : String) (A : List String)
    (h : Path vals id A) : A.Nodup := by
  induction h with
  | base k hk => exact List.nodup_singleton k
  | step k p A s hs hid hparent hA hnew ih => exact List.nodup_cons.mpr ⟨hnew, ih⟩

/-- Every value whose id lies on the path points at its successor. -/
theorem path_decomp (vals : List Span) (hvals : (vals.map Span.id).Nodup)
    {id : String} {A : List String} (h : Path vals id A) :
    ∀ s ∈ vals, s.id ∈ A → ∃ B C, A = B ++ s.id :: C ∧ s.parent_id = C.head? := by
  induction h with
  | base k hk =>
    intro s hs hmem
    rw [List.mem_singleton] at hmem
    exact absurd (hmem ▸ List.mem_map_of_mem Span.id hs) hk
  | step k p A s₀ hs₀ hid hparent hA hnew ih =>
    intro s hs hmem
    rcases List.mem_cons.mp hmem with h1 | h1
    · have hseq : s = s₀ := List.inj_on_of_nodup_map hvals hs hs₀ (by rw [h1, hid])
      obtain ⟨A', hA'⟩ := path_head vals p A hA
      refine ⟨[], A, by simp [h1, hseq, hid], ?_⟩
      rw [hseq, hparent, hA']
      rfl
    · obtain ⟨B, C, hBC, hparC⟩ := ih s hs h1
      exact ⟨k :: B, C, by rw [hBC]; rfl, hparC⟩

/-- A child of the path's node never re-enters the path. -/
theorem path_child_not_mem (vals : List Span) (hvals : (vals.map Span.id).Nodup)
    {id : String} {A : List String} (h : Path vals id A) (c : Span) (hc : c ∈ vals)
    (hp : c.parent_id = some id) : c.id ∉ A := by
  intro hmem
  obtain ⟨B, C, hBC, hparC⟩ := path_decomp vals hvals h c hc hmem
  rw [hp] at hparC
  cases C with
  | nil => simp at hparC
  | cons c0 C' =>
    have hc0 : c0 = id := by simpa using hparC.symm
    rw [hc0] at hBC
    have hnodup := path_nodup vals id A h
    obtain ⟨A', hA'⟩ := path_head vals id A h
    rw [hBC] at hA' hnodup
    cases B with
    | nil =>
      simp only [List.nil_append] at hA' hnodup
      have hcid : c.id = id := by
        have := congrArg List.head? hA'
        simpa using this
      rw [List.nodup_cons] at hnodup
      exact hnodup.1 (by rw [hcid]; exact List.mem_cons_self id C')
    | cons b B' =>
      have hb : b = id := by
        have := congrArg List.head? hA'
        simpa using this
      rw [List.nodup_append] at hnodup
      exact hnodup.2.2 (hb ▸ List.mem_cons_self b B')
        (List.mem_cons_of_mem _ (List.mem_cons_self _ _))

/-! ### Parent-chain lemmas -/

/-- The chain is absorbing on `none`. -/
theorem pChain_none (vals : List Span) (n : Nat) : pChain vals n none = none := by
  induction n with
  | zero => rfl
  | succ n ih => simp [pChain, ih]

/-- Stepping can be peeled off the back of a chain. -/
theorem pChain_succ_out (vals : List Span) (n : Nat) (o : Option String) :
    pChain vals (n + 1) o = (pChain vals n o).bind fun k => pStep vals k := by
  induction n generalizing o with
  | zero => rfl
  | succ n ih =>
    show pChain vals (n + 1) (o.bind fun k => pStep vals k) = _
    rw [ih]
    rfl

/-- Chains compose over addition. -/
theorem pChain_add (vals : List Span) (a b : Nat) (o : Option String) :
    pChain vals (a + b) o = pChain vals b (pChain vals a o) := by
  induction a generalizing o with
  | zero => rw [Nat.zero_add]; rfl
  | succ a ih =>
    rw [Nat.succ_add]
    show pChain vals (a + b) (o.bind fun k => pStep vals k) = _
    rw [ih]
    rfl

/-- The parent step of a value is its `parent_id`. -/
theorem pStep_self (vals : List Span) (hvals : (vals.map Span.id).Nodup)
    (v : Span) (hv : v ∈ vals) : pStep vals v.id = v.parent_id := by
  unfold pStep
  rw [lookupA_spansMapOf_self vals hvals v hv]

/-- One parent step never leaves an ancestor path. -/
theorem path_closed_step (vals : List Span) (hvals : (vals.map Span.id).Nodup)
    {id : String} {A : List String} (h : Path vals id A) :
    ∀ k ∈ A, ∀ k', pStep vals k = some k' → k' ∈ A := by
  intro k hk k' hk'
  unfold pStep at hk'
  cases hl : lookupA k (spansMapOf vals) with
  | none => rw [hl] at hk'; simp at hk'
  | some s =>
    rw [hl] at hk'
    have hk2 : s.parent_id = some k' := hk'
    obtain ⟨hs, hsid⟩ := lookupA_spansMapOf_mem vals k s hl
    obtain ⟨B, C, hBC, hparC⟩ := path_decomp vals hvals h s hs (hsid ▸ hk)
    rw [hk2] at hparC
    cases C with
    | nil => simp at hparC
    | cons c0 C' =>
      have : k' = c0 := by simpa using hparC
      subst this
      rw [hBC]
      exact List.mem_append_right _ (List.mem_cons_of_mem _ (List.mem_cons_self _ _))

/-- Whole chains never leave an ancestor path. -/
theorem pChain_closed (vals : List Span) (hvals : (vals.map Span.id).Nodup)
    {id : String} {A : List String} (h : Path vals id A) :
    ∀ n k, k ∈ A → ∀ k', pChain vals n (some k) = some k' → k' ∈ A := by
  intro n
  induction n with
  | zero =>
    intro k hk k' he
    have : k' = k := by simpa [pChain] using he.symm
    exact this ▸ hk
  | succ n ih =>
    intro k hk k' he
    show k' ∈ A
    have he' : pChain vals n (pStep vals k) = some k' := by
      simpa [pChain] using he
    cases hstep : pStep vals k with
    | none => rw [hstep, pChain_none] at he'; cases he'
    | some k1 =>
      rw [hstep] at he'
      exact ih k1 (path_closed_step vals hvals h k hk k1 hstep) k' he'

/-! ### Sortedness of the emission -/

/-- `filter` distributes over `flatMap`. -/
theorem filter_flatMap {α β : Type} (l : List α) (f : α → List β) (p : β → Bool) :
    (l.flatMap f).filter p = l.flatMap fun a => (f a).filter p := by
  induction l with
  | nil => rfl
  | cons a t ih => simp [List.flatMap_cons, List.filter_append, ih]

/-- A `flatMap` all of whose blocks are empty is empty. -/
theorem flatMap_eq_nil_of_forall {α β : Type} (l : List α) (f : α → List β)
    (h : ∀ a ∈ l, f a = []) : l.flatMap f = [] := by
  induction l with
  | nil => rfl
  | cons a t ih =>
    simp [List.flatMap_cons, h a (by simp), ih fun b hb => h b (by simp [hb])]

/-- A `flatMap` into singletons is a `map`. -/
theorem flatMap_single_eq_map {α β : Type} (l : List α) (g : α → β) :
    (l.flatMap fun a => [g a]) = l.map g := by
  induction l with
  | nil => rfl
  | cons a t ih => simp [List.flatMap_cons, ih]

/-- Block congruence for `flatMap`. -/
theorem flatMap_congr_mem {α β : Type} (l : List α) (f g : α → List β)
    (h : ∀ a ∈ l, f a = g a) : l.flatMap f = l.flatMap g := by
  induction l with
  | nil => rfl
  | cons a t ih =>
    simp [List.flatMap_cons, h a (by simp), ih fun b hb => h b (by simp [hb])]

/-- A concatenation of sorted blocks at most one of which is nonempty is
sorted. -/
theorem sorted_flatMap_single (cs : List Span) (F : Span → List Span)
    (hsorted : ∀ c ∈ cs, List.Sorted spanLe (F c))
    (hids : (cs.map Span.id).Nodup)
    (hsingle : ∀ c ∈ cs, ∀ c' ∈ cs, c.id ≠ c'.id → F c ≠ [] → F c' = []) :
    List.Sorted spanLe (cs.flatMap F) := by
  induction cs with
  | nil => exact List.sorted_nil
  | cons c t ih =>
    rw [List.flatMap_cons]
    by_cases hc : F c = []
    · rw [hc, List.nil_append]
      exact ih (fun d hd => hsorted d (by simp [hd])) (by simpa using hids.of_cons)
        fun d hd d' hd' => hsingle d (by simp [hd]) d' (by simp [hd'])
    · have hrest : t.flatMap F = [] := by
        refine flatMap_eq_nil_of_forall t F fun d hd => ?_
        have hne : c.id ≠ d.id := by
          intro e
          have : c.id ∈ t.map Span.id := e ▸ List.mem_map_of_mem Span.id hd
          exact (List.nodup_cons.mp (by simpa using hids)).1 this
        exact hsingle c (by simp) d (by simp [hd]) hne hc
      rw [hrest, List.append_nil]
      exact hsorted c (by simp)

/-- The core invariants of the pre-order emission, by induction on fuel.
Below a node lying on an ancestor path `A`: the emitted ids avoid `A` and
are pairwise distinct, every emitted span's parent chain reaches the node
in at least one step, and for every parent key the emitted spans naming
that parent appear in ascending start order. -/
theorem emit_good (vals : List Span) (hvals : (vals.map Span.id).Nodup) :
    ∀ fuel id lvl A, Path vals id A →
      (∀ s ∈ emitAux vals fuel id lvl, s.id ∉ A) ∧
      ((emitAux vals fuel id lvl).map Span.id).Nodup ∧
      (∀ s ∈ emitAux vals fuel id lvl, ∃ n, 1 ≤ n ∧ pChain vals n (some s.id) = some id) ∧
      (∀ p, List.Sorted spanLe
        ((emitAux vals fuel id lvl).filter fun s => s.parent_id == some p)) := by
  intro fuel
  induction fuel with
  | zero =>
    intro id lvl A hpath
    refine ⟨?_, ?_, ?_, ?_⟩ <;> simp [emitAux_zero]
  | succ fuel ih =>
    intro id lvl A hpath
    have hc_mem : ∀ c ∈ childrenAt vals id, c ∈ vals ∧ c.parent_id = some id :=
      fun c hc => (childrenAt_mem vals hvals id c).mp hc
    have hc_notA : ∀ c ∈ childrenAt vals id, c.id ∉ A := fun c hc =>
      path_child_not_mem vals hvals hpath c (hc_mem c hc).1 (hc_mem c hc).2
    have hc_path : ∀ c ∈ childrenAt vals id, Path vals c.id (c.id :: A) := fun c hc =>
      Path.step c.id id A c (hc_mem c hc).1 rfl (hc_mem c hc).2 hpath (hc_notA c hc)
    have hblk := fun (c : Span) (hc : c ∈ childrenAt vals id) =>
      ih c.id (lvl + 1) (c.id :: A) (hc_path c hc)
    have hid_in_A : id ∈ A := by
      obtain ⟨A', hA'⟩ := path_head vals id A hpath
      rw [hA']
      exact List.mem_cons_self _ _
    have hstep_c : ∀ c ∈ childrenAt vals id, pStep vals c.id = some id := by
      intro c hc
      rw [pStep_self vals hvals c (hc_mem c hc).1]
      exact (hc_mem c hc).2
    have hblk_ids_notA : ∀ c ∈ childrenAt vals id,
        ∀ x ∈ ({ c with level := lvl + 1 } :: emitAux vals fuel c.id (lvl + 1)),
        x.id ∉ A := by
      intro c hc x hx
      rcases List.mem_cons.mp hx with h1 | h1
      · rw [h1]; exact hc_notA c hc
      · exact fun hmem => (hblk c hc).1 x h1 (List.mem_cons_of_mem _ hmem)
    have hblk_chain0 : ∀ c ∈ childrenAt vals id,
        ∀ x ∈ ({ c with level := lvl + 1 } :: emitAux vals fuel c.id (lvl + 1)),
        ∃ n, pChain vals n (some x.id) = some c.id := by
      intro c hc x hx
      rcases List.mem_cons.mp hx with h1 | h1
      · exact ⟨0, by rw [h1]; rfl⟩
      · obtain ⟨n, _, hn2⟩ := (hblk c hc).2.2.1 x h1
        exact ⟨n, hn2⟩
    have hexit : ∀ (z : String) (a b : Nat) (c c' : Span),
        c ∈ childrenAt vals id → c' ∈ childrenAt vals id → a ≤ b →
        pChain vals a (some z) = some c.id → pChain vals b (some z) = some c'.id →
        c.id = c'.id := by
      intro z a b c c' hc hc' hab ha hb
      by_contra hne
      obtain ⟨k, hk⟩ := Nat.exists_eq_add_of_le hab
      subst hk
      rw [pChain_add, ha] at hb
      cases k with
      | zero => exact hne (by simpa [pChain] using hb)
      | succ k =>
        have h1 : pChain vals (k + 1) (some c.id) = pChain vals k (some id) := by
          show pChain vals k ((some c.id).bind fun k0 => pStep vals k0) = _
          simp [hstep_c c hc]
        rw [h1] at hb
        exact hc_notA c' hc' (pChain_closed vals hvals hpath k id hid_in_A c'.id hb)
    have hdisj : ∀ c ∈ childrenAt vals id, ∀ c' ∈ childrenAt vals id, c.id ≠ c'.id →
        ∀ x ∈ ({ c with level := lvl + 1 } :: emitAux vals fuel c.id (lvl + 1)),
        ∀ y ∈ ({ c' with level := lvl + 1 } :: emitAux vals fuel c'.id (lvl + 1)),
        x.id ≠ y.id := by
      intro c hc c' hc' hne x hx y hy he
      obtain ⟨a, ha⟩ := hblk_chain0 c hc x hx
      obtain ⟨b, hb⟩ := hblk_chain0 c' hc' y hy
      rw [← he] at hb
      rcases Nat.le_total a b with hab | hab
      · exact hne (hexit x.id a b c c' hc hc' hab ha hb)
      · exact hne (hexit x.id b a c' c hc' hc hab hb ha).symm
    have hdeep_empty : ∀ c ∈ childrenAt vals id,
        ∀ x ∈ emitAux vals fuel c.id (lvl + 1), x.parent_id ≠ some id := by
      intro c hc x hx hxp
      obtain ⟨n, hn1, hn2⟩ := (hblk c hc).2.2.1 x hx
      have hstep_x : pStep vals x.id = some id := by
        obtain ⟨v, hv, l, he⟩ := emitAux_mem vals hvals fuel c.id (lvl + 1) x hx
        have hxi : x.id = v.id := by rw [he]
        rw [hxi, pStep_self vals hvals v hv]
        rw [he] at hxp
        exact hxp
      obtain ⟨m, hm⟩ := Nat.exists_eq_add_of_le hn1
      rw [hm, pChain_add] at hn2
      have h1 : pChain vals 1 (some x.id) = some id := by
        show pChain vals 0 ((some x.id).bind fun k => pStep vals k) = some id
        simpa using hstep_x
      rw [h1] at hn2
      exact hc_notA c hc (pChain_closed vals hvals hpath m id hid_in_A c.id hn2)
    refine ⟨?_, ?_, ?_, ?_⟩
    · -- R1: emitted ids avoid the path
      intro s hs
      rw [emitAux_succ] at hs
      obtain ⟨c, hc, hsc⟩ := List.mem_flatMap.mp hs
      exact hblk_ids_notA c hc s hsc
    · -- R2: emitted ids pairwise distinct
      rw [emitAux_succ]
      have haux : ∀ cs : List Span, (∀ c ∈ cs, c ∈ childrenAt vals id) →
          (cs.map Span.id).Nodup →
          ((cs.flatMap fun c =>
            { c with level := lvl + 1 } :: emitAux vals fuel c.id (lvl + 1)).map
              Span.id).Nodup := by
        intro cs
        induction cs with
        | nil => intro _ _; simp
        | cons c t ihc =>
          intro hsub hnod
          rw [List.flatMap_cons, List.map_append, List.nodup_append]
          refine ⟨?_, ihc (fun d hd => hsub d (by simp [hd])) (by simpa using hnod.of_cons), ?_⟩
          · rw [List.map_cons]
            refine List.nodup_cons.mpr ⟨?_, (hblk c (hsub c (by simp))).2.1⟩
            intro hmem
            obtain ⟨x, hx, hxid⟩ := List.mem_map.mp hmem
            exact (hblk c (hsub c (by simp))).1 x hx (by
              rw [show Span.id x = c.id from hxid]
              exact List.mem_cons_self _ _)
          · intro a ha hb
            obtain ⟨x, hx, hxid⟩ := List.mem_map.mp ha
            obtain ⟨y, hy, hyid⟩ := List.mem_map.mp (by
              obtain ⟨z, hz, hzid⟩ := List.mem_map.mp hb
              exact List.mem_map.mpr ⟨z, hz, hzid⟩)
            obtain ⟨c', hc', hyc⟩ := List.mem_flatMap.mp hy
            have hne : c.id ≠ c'.id := by
              intro e
              have : c.id ∈ t.map Span.id := e ▸ List.mem_map_of_mem Span.id hc'
              exact (List.nodup_cons.mp (by simpa using hnod)).1 this
            exact hdisj c (hsub c (by simp)) c' (hsub c' (by simp [hc'])) hne x hx y hyc
              (by rw [hxid, hyid])
      exact haux (childrenAt vals id) (fun c hc => hc) (childrenAt_ids_nodup vals hvals id)
    · -- R3: chains reach the node
      intro s hs
      rw [emitAux_succ] at hs
      obtain ⟨c, hc, hsc⟩ := List.mem_flatMap.mp hs
      obtain ⟨n, hn⟩ := hblk_chain0 c hc s hsc
      refine ⟨n + 1, by omega, ?_⟩
      rw [pChain_succ_out, hn]
      simpa using hstep_c c hc
    · -- R5: per-parent filters are start-sorted
      intro p
      rw [emitAux_succ, filter_flatMap]
      by_cases hp : p = id
      · subst hp
        rw [flatMap_congr_mem _ _ (fun c => [{ c with level := lvl + 1 }]) ?_]
        · rw [flatMap_single_eq_map]
          exact List.pairwise_map.mpr ((childrenAt_sorted vals p).imp fun h => h)
        · intro c hc
          rw [List.filter_cons]
          have h1 : (({ c with level := lvl + 1 } : Span).parent_id == some p) = true := by
            have := (hc_mem c hc).2
            simp [this]
          rw [if_pos h1]
          have h2 : (emitAux vals fuel c.id (lvl + 1)).filter
              (fun s => s.parent_id == some p) = [] := by
            rw [List.filter_eq_nil_iff]
            intro x hx hpred
            exact hdeep_empty c hc x hx (by simpa using hpred)
          rw [h2]
      · rw [flatMap_congr_mem _ _
          (fun c => (emitAux vals fuel c.id (lvl + 1)).filter
            fun s => s.parent_id == some p) ?_]
        · refine sorted_flatMap_single _ _ (fun c hc => (hblk c hc).2.2.2 p)
            (childrenAt_ids_nodup vals hvals id) ?_
          intro c hc c' hc' hne hne2
          by_contra hne3
          obtain ⟨x, hx⟩ := List.exists_mem_of_ne_nil _ hne2
          obtain ⟨y, hy⟩ := List.exists_mem_of_ne_nil _ hne3
          have hx2 := List.mem_filter.mp hx
          have hy2 := List.mem_filter.mp hy
          obtain ⟨qx, hqx, hqxc⟩ := emitAux_parent vals hvals fuel c.id (lvl + 1) x hx2.1
          obtain ⟨qy, hqy, hqyc⟩ := emitAux_parent vals hvals fuel c'.id (lvl + 1) y hy2.1
          have hqxp : qx = p := by
            have := hx2.2
            rw [hqx] at this
            simpa using this
          have hqyp : qy = p := by
            have := hy2.2
            rw [hqy] at this
            simpa using this
          -- p is an id inside both blocks, contradicting their disjointness
          have hpx : ∃ u ∈ ({ c with level := lvl + 1 } ::
              emitAux vals fuel c.id (lvl + 1)), u.id = p := by
            rcases hqxc with h2 | h2
            · exact ⟨{ c with level := lvl + 1 }, List.mem_cons_self _ _, by
                rw [← hqxp, ← h2]⟩
            · obtain ⟨u, hu, huid⟩ := List.mem_map.mp h2
              exact ⟨u, List.mem_cons_of_mem _ hu, by rw [huid, hqxp]⟩
          have hpy : ∃ u ∈ ({ c' with level := lvl + 1 } ::
              emitAux vals fuel c'.id (lvl + 1)), u.id = p := by
            rcases hqyc with h2 | h2
            · exact ⟨{ c' with level := lvl + 1 }, List.mem_cons_self _ _, by
                rw [← hqyp, ← h2]⟩
            · obtain ⟨u, hu, huid⟩ := List.mem_map.mp h2
              exact ⟨u, List.mem_cons_of_mem _ hu, by rw [huid, hqyp]⟩
          obtain ⟨u, hu, huid⟩ := hpx
          obtain ⟨w, hw, hwid⟩ := hpy
          exact hdisj c hc c' hc' hne u hu w hw (by rw [huid, hwid])
        · intro c hc
          rw [List.filter_cons]
          have h1 : (({ c with level := lvl + 1 } : Span).parent_id == some p) = false := by
            have h2 := (hc_mem c hc).2
            simp [h2]
            exact fun e => hp e.symm
          rw [if_neg (by simp [h1])]

/-! ### Trace-level plumbing -/

/-- Every built trace arises from a root and its trace-id group. -/
theorem buildTracesList_mem (spans : List Span) (t : Trace)
    (ht : t ∈ buildTracesList spans) :
    ∃ root ∈ spans.filter (fun s => s.parent_id.isNone),
      t = Trace.new root (groupOf spans root.trace_id) := by
  rw [buildTracesList_eq] at ht
  obtain ⟨root, hr, he⟩ := List.mem_map.mp ht
  exact ⟨root, hr, he.symm⟩

/-- Members of a trace-id group are non-root spans of that trace id. -/
theorem groupOf_mem (spans : List Span) (tid : String) :
    ∀ g ∈ groupOf spans tid, g ∈ spans ∧ g.parent_id ≠ none ∧ g.trace_id = tid := by
  intro g hg
  have h1 := List.mem_filter.mp hg
  have h2 := List.mem_filter.mp h1.1
  refine ⟨h2.1, ?_, by simpa using h1.2⟩
  intro hnone
  have h3 := h2.2
  rw [hnone] at h3
  simp at h3

/-! ### C5: sibling ordering and offset computation -/

/-- C5: in every assembled trace, for every parent key the spans naming
that parent appear in ascending `start` order (ties resolved by the stable
sort, i.e. implementation-defined), and every non-root span's
`offset_micros` is the checked whole-microsecond difference between its
start and the root's start (the head of the vector), computed by
`setOffset` before ordering. -/
theorem trace_siblings_sorted_and_offsets (spans : List Span)
    (hids : (spans.map Span.id).Nodup) :
    ∀ t ∈ buildTracesList spans,
      (∀ p, List.Sorted spanLe (t.spans.filter fun s => s.parent_id == some p)) ∧
      (∀ s ∈ t.spans, s.parent_id.isSome →
        ∃ r, t.spans.head? = some r ∧
          s.offset_micros = (num_microseconds (s.start - r.start)).getD 0) := by
  intro t ht
  obtain ⟨root, hr, he⟩ := buildTracesList_mem spans t ht
  have hrr := List.mem_filter.mp hr
  have hrp : root.parent_id = none := by simpa using hrr.2
  subst he
  rw [traceNew_spans]
  have hvals := traceVals_ids_nodup root (groupOf spans root.trace_id)
  have hpath := path_base_of_nodup spans hids root hrr.1 hrp root.trace_id
  have hg := emit_good (traceVals root (groupOf spans root.trace_id)) hvals
    ((groupOf spans root.trace_id).length + 1) root.id 0 [root.id] hpath
  constructor
  · intro p
    rw [List.filter_cons]
    have hroot_pred : (root.parent_id == some p) = false := by simp [hrp]
    rw [if_neg (by simp [hroot_pred])]
    exact hg.2.2.2 p
  · intro s hs hsome
    rcases List.mem_cons.mp hs with h1 | h1
    · rw [h1, hrp] at hsome
      simp at hsome
    · refine ⟨root, rfl, ?_⟩
      obtain ⟨v, hvv, l, hev⟩ :=
        emitAux_mem (traceVals root (groupOf spans root.trace_id)) hvals _ root.id 0 s h1
      obtain ⟨g, hgmem, hge⟩ := traceVals_mem root (groupOf spans root.trace_id) v hvv
      rw [hev, hge]
      simp [setOffset]

/-! ### C7: orphans are dropped, assembly never fails -/

/-- C7: the assembler never returns an error, and a span whose declared
parent id exists neither as the root nor among its trace's spans is
entirely absent from every reconstructed trace (dropped, not fatal). -/
theorem orphan_dropped_never_fails (spans : List Span) (s : Span) (p : String)
    (hids : (spans.map Span.id).Nodup) (hs : s ∈ spans) (hp : s.parent_id = some p)
    (hmiss : p ∉ (spans.filter fun x => x.trace_id == s.trace_id).map Span.id) :
    build_traces spans = .ok (buildTracesList spans) ∧
    ∀ t ∈ buildTracesList spans, ∀ x ∈ t.spans, x.id ≠ s.id := by
  refine ⟨rfl, ?_⟩
  intro t ht x hx he
  obtain ⟨root, hr, hte⟩ := buildTracesList_mem spans t ht
  have hrr := List.mem_filter.mp hr
  have hrp : root.parent_id = none := by simpa using hrr.2
  subst hte
  rw [traceNew_spans] at hx
  rcases List.mem_cons.mp hx with h1 | h1
  · rw [h1] at he
    have hroot_s : root = s := List.inj_on_of_nodup_map hids hrr.1 hs he
    rw [hroot_s, hp] at hrp
    cases hrp
  · have hvals := traceVals_ids_nodup root (groupOf spans root.trace_id)
    obtain ⟨v, hvv, l, hev⟩ :=
      emitAux_mem (traceVals root (groupOf spans root.trace_id)) hvals _ root.id 0 x h1
    obtain ⟨g, hgmem, hge⟩ := traceVals_mem root (groupOf spans root.trace_id) v hvv
    have hgid : g.id = s.id := by
      rw [hev, hge] at he
      simpa [setOffset] using he
    have hgs := (groupOf_mem spans root.trace_id g hgmem).1
    have hgeq : g = s := List.inj_on_of_nodup_map hids hgs hs hgid
    have hstid : s.trace_id = root.trace_id := by
      have h2 := (groupOf_mem spans root.trace_id g hgmem).2.2
      rw [hgeq] at h2
      exact h2
    obtain ⟨q, hq, hqc⟩ :=
      emitAux_parent (traceVals root (groupOf spans root.trace_id)) hvals _ root.id 0 x h1
    have hxp : x.parent_id = some p := by
      rw [hev, hge, hgeq]
      simpa [setOffset] using hp
    rw [hxp] at hq
    have hqp : q = p := by simpa using hq.symm
    subst hqp
    rcases hqc with h2 | h2
    · apply hmiss
      refine List.mem_map.mpr ⟨root, ?_, h2.symm⟩
      exact List.mem_filter.mpr ⟨hrr.1, by simp [hstid]⟩
    · obtain ⟨u, hu, huid⟩ := List.mem_map.mp h2
      obtain ⟨vu, hvu, lu, heu⟩ :=
        emitAux_mem (traceVals root (groupOf spans root.trace_id)) hvals _ root.id 0 u hu
      obtain ⟨gu, hgu, hgeu⟩ := traceVals_mem root (groupOf spans root.trace_id) vu hvu
      apply hmiss
      refine List.mem_map.mpr ⟨gu, ?_, ?_⟩
      · refine List.mem_filter.mpr ⟨(groupOf_mem spans root.trace_id gu hgu).1, ?_⟩
        have h3 := (groupOf_mem spans root.trace_id gu hgu).2.2
        simp [h3, hstid]
      · have h4 : u.id = gu.id := by rw [heu, hgeu]; simp [setOffset]
        rw [← h4]
        exact huid

/-! ### C6: a non-root span appears in at most one trace -/

/-- C6 (amended): any trace containing a span carrying a non-root span's
id is the trace of that span's `trace_id`, and — when no two roots share a
trace id — at most one reconstructed trace contains it.  (Orphaned or
rootless spans appear in none; see the counterexample.) -/
theorem span_in_at_most_one_trace (spans : List Span) (s : Span)
    (hids : (spans.map Span.id).Nodup)
    (hroots : ((spans.filter fun x => x.parent_id.isNone).map Span.trace_id).Nodup)
    (hs : s ∈ spans) (hp : s.parent_id.isSome) :
    (∀ t ∈ buildTracesList spans, (∃ x ∈ t.spans, x.id = s.id) → t.id = s.trace_id) ∧
    ((buildTracesList spans).countP fun t => t.spans.any fun x => x.id == s.id) ≤ 1 := by
  have hmain : ∀ t ∈ buildTracesList spans,
      (∃ x ∈ t.spans, x.id = s.id) → t.id = s.trace_id := by
    rintro t ht ⟨x, hx, he⟩
    obtain ⟨root, hr, hte⟩ := buildTracesList_mem spans t ht
    have hrr := List.mem_filter.mp hr
    have hrp : root.parent_id = none := by simpa using hrr.2
    subst hte
    rw [traceNew_spans] at hx
    rcases List.mem_cons.mp hx with h1 | h1
    · rw [h1] at he
      have hroot_s : root = s := List.inj_on_of_nodup_map hids hrr.1 hs he
      rw [hroot_s] at hrp
      rw [hrp] at hp
      simp at hp
    · have hvals := traceVals_ids_nodup root (groupOf spans root.trace_id)
      obtain ⟨v, hvv, l, hev⟩ :=
        emitAux_mem (traceVals root (groupOf spans root.trace_id)) hvals _ root.id 0 x h1
      obtain ⟨g, hgmem, hge⟩ := traceVals_mem root (groupOf spans root.trace_id) v hvv
      have hgid : g.id = s.id := by
        rw [hev, hge] at he
        simpa [setOffset] using he
      have hgs := (groupOf_mem spans root.trace_id g hgmem).1
      have hgeq : g = s := List.inj_on_of_nodup_map hids hgs hs hgid
      have hstid : s.trace_id = root.trace_id := by
        have h2 := (groupOf_mem spans root.trace_id g hgmem).2.2
        rw [hgeq] at h2
        exact h2
      rw [traceNew_id, hstid]
  refine ⟨hmain, ?_⟩
  calc ((buildTracesList spans).countP fun t => t.spans.any fun x => x.id == s.id)
      ≤ (buildTracesList spans).countP fun t => t.id == s.trace_id := by
        refine List.countP_mono_left fun t ht hpred => ?_
        have hex : ∃ x ∈ t.spans, x.id = s.id := by
          obtain ⟨x, hx, hxe⟩ := List.any_eq_true.mp hpred
          exact ⟨x, hx, by simpa using hxe⟩
        simpa using hmain t ht hex
    _ ≤ 1 := by
        rw [buildTracesList_eq, List.countP_map]
        have heq : ((spans.filter fun x => x.parent_id.isNone).countP
            ((fun t => t.id == s.trace_id) ∘ fun root =>
              Trace.new root (groupOf spans root.trace_id))) =
            ((spans.filter fun x => x.parent_id.isNone).countP
              fun root => root.trace_id == s.trace_id) := by
          refine List.countP_congr fun root hroot => ?_
          simp [Function.comp_def, traceNew_id]
        rw [heq]
        have h2 : ((spans.filter fun x => x.parent_id.isNone).countP
            fun root => root.trace_id == s.trace_id) =
            (((spans.filter fun x => x.parent_id.isNone).map Span.trace_id).countP
              fun y => y == s.trace_id) := by
          rw [List.countP_map]
          rfl
        rw [h2, ← List.count_eq_countP]
        exact List.nodup_iff_count_le_one.mp hroots s.trace_id

/-- Witness for C5: children submitted out of order come out in ascending
start order with recomputed offsets and levels; the child starting 500 ms
after the root's start has `offset_micros = 500000`. -/
theorem trace_siblings_sorted_and_offsets_witness :
    ((spansFixture.map Span.id).Nodup) ∧
    (∀ t ∈ buildTracesList spansFixture,
      (∀ p, List.Sorted spanLe (t.spans.filter fun s => s.parent_id == some p)) ∧
      (∀ s ∈ t.spans, s.parent_id.isSome →
        ∃ r, t.spans.head? = some r ∧
          s.offset_micros = (num_microseconds (s.start - r.start)).getD 0)) ∧
    ((buildTracesList spansFixture).map fun t =>
      t.spans.map fun s => (s.id, s.offset_micros, s.level)) =
      [[("r", 0, 0), ("c1", 500000, 1), ("d", 600000, 2), ("c2", 2000000, 1)]] :=
  ⟨by decide, trace_siblings_sorted_and_offsets spansFixture (by decide), by decide⟩

/-- Witness for C7 at the spec's scenario: the orphan is gone, the rest of
the trace is assembled, and the assembler returns `Ok`. -/
theorem orphan_dropped_never_fails_witness :
    ((spansFixtureMixed.map Span.id).Nodup) ∧ spanOrphanX ∈ spansFixtureMixed ∧
    spanOrphanX.parent_id = some "zzz" ∧
    ("zzz" ∉ (spansFixtureMixed.filter fun x =>
      x.trace_id == spanOrphanX.trace_id).map Span.id) ∧
    (build_traces spansFixtureMixed = .ok (buildTracesList spansFixtureMixed) ∧
      ∀ t ∈ buildTracesList spansFixtureMixed, ∀ x ∈ t.spans, x.id ≠ spanOrphanX.id) ∧
    ((buildTracesList spansFixtureMixed).map fun t => t.spans.map Span.id) = [["r", "c1"]] :=
  ⟨by decide, by decide, by decide, by decide,
    orphan_dropped_never_fails spansFixtureMixed spanOrphanX "zzz" (by decide) (by decide)
      (by decide) (by decide), by decide⟩

/-- C6 counterexample: an orphaned span with a `parent_id` appears in zero
reconstructed traces, not exactly one, even though a trace with its
`trace_id` exists. -/
theorem orphan_in_no_trace :
    spanOrphanX ∈ spansFixtureOrphan ∧ spanOrphanX.parent_id = some "zzz" ∧
    ((buildTracesList spansFixtureOrphan).map Trace.id) = ["t"] ∧
    ((buildTracesList spansFixtureOrphan).countP fun t =>
      t.spans.any fun x => x.id == spanOrphanX.id) = 0 :=
  ⟨by decide, by decide, by decide, by decide⟩

/-- Witness for the amended C6 theorem at a concrete input. -/
theorem span_in_at_most_one_trace_witness :
    ((spansFixture.map Span.id).Nodup) ∧
    (((spansFixture.filter fun x => x.parent_id.isNone).map Span.trace_id).Nodup) ∧
    spanChildC1 ∈ spansFixture ∧ spanChildC1.parent_id.isSome ∧
    ((∀ t ∈ buildTracesList spansFixture,
        (∃ x ∈ t.spans, x.id = spanChildC1.id) → t.id = spanChildC1.trace_id) ∧
      ((buildTracesList spansFixture).countP fun t =>
        t.spans.any fun x => x.id == spanChildC1.id) ≤ 1) :=
  ⟨by decide, by decide, by decide, by decide,
    span_in_at_most_one_trace spansFixture spanChildC1 (by decide) (by decide) (by decide)
      (by decide)⟩

/-! ### C4: pre-order well-formedness -/

/-- The empty vector is trivially pre-order well-formed. -/
theorem preOrderOk_nil : PreOrderOk [] := by
  intro pre x post heq _
  cases pre <;> simp at heq

/-- A single-element vector is pre-order well-formed. -/
theorem preOrderOk_singleton (s : Span) : PreOrderOk [s] := by
  intro pre x post heq hpre
  cases pre with
  | nil => exact absurd rfl hpre
  | cons a t =>
    have hl := congrArg List.length heq
    simp at hl

/-- Appending one span preserves pre-order well-formedness when its parent
reference is satisfied by the existing vector. -/
theorem preOrderOk_append_single (l : List Span) (x : Span) (h : PreOrderOk l)
    (hx : l = [] ∨ ∃ s ∈ l, some s.id = x.parent_id ∧ x.level = s.level + 1) :
    PreOrderOk (l ++ [x]) := by
  intro pre y post heq hpre
  cases post with
  | nil =>
    have hlen : l.length = pre.length := by
      have := congrArg List.length heq
      simp at this
      omega
    obtain ⟨h1, h2⟩ := List.append_inj heq hlen
    have h3 : x = y := by simpa using h2
    rcases hx with hx | ⟨s, hsmem, hsid, hslvl⟩
    · rw [hx] at h1
      exact absurd h1.symm hpre
    · exact ⟨s, h1 ▸ hsmem, h3 ▸ hsid, h3 ▸ hslvl⟩
  | cons p0 ps =>
    have hdrop : l = pre ++ y :: (p0 :: ps).dropLast := by
      have h1 : (l ++ [x]).dropLast = l := List.dropLast_concat
      rw [heq, List.dropLast_append_of_ne_nil pre (by simp)] at h1
      rw [← h1]
      rfl
    exact h pre y _ hdrop hpre

/-- The emission preserves pre-order well-formedness of any vector that
already contains a span with the current node's id and level. -/
theorem preOrder_emit (vals : List Span) (hvals : (vals.map Span.id).Nodup) :
    ∀ fuel id lvl (pre : List Span), PreOrderOk pre →
      (∃ s ∈ pre, s.id = id ∧ s.level = lvl) →
      PreOrderOk (pre ++ emitAux vals fuel id lvl) := by
  intro fuel
  induction fuel with
  | zero =>
    intro id lvl pre hpre _
    simpa [emitAux_zero] using hpre
  | succ fuel ih =>
    intro id lvl pre hpre hanchor
    rw [emitAux_succ]
    have haux : ∀ cs : List Span, (∀ c ∈ cs, c ∈ childrenAt vals id) →
        ∀ pre : List Span, PreOrderOk pre → (∃ s ∈ pre, s.id = id ∧ s.level = lvl) →
        PreOrderOk (pre ++ cs.flatMap fun c =>
          { c with level := lvl + 1 } :: emitAux vals fuel c.id (lvl + 1)) := by
      intro cs
      induction cs with
      | nil =>
        intro _ pre hpre _
        simpa using hpre
      | cons c t ihc =>
        intro hsub pre hpre hanchor
        rw [List.flatMap_cons]
        have hstep1 : PreOrderOk (pre ++ [{ c with level := lvl + 1 }]) := by
          refine preOrderOk_append_single pre _ hpre (Or.inr ?_)
          obtain ⟨s, hsmem, hsid, hslvl⟩ := hanchor
          refine ⟨s, hsmem, ?_, by simp [hslvl]⟩
          have hcp := ((childrenAt_mem vals hvals id c).mp (hsub c (by simp))).2
          simp [hcp, hsid]
        have hstep2 : PreOrderOk ((pre ++ [{ c with level := lvl + 1 }]) ++
            emitAux vals fuel c.id (lvl + 1)) := by
          refine ih c.id (lvl + 1) _ hstep1 ?_
          exact ⟨{ c with level := lvl + 1 }, by simp, rfl, rfl⟩
        have hanchor2 : ∃ s ∈ (pre ++ [{ c with level := lvl + 1 }]) ++
            emitAux vals fuel c.id (lvl + 1), s.id = id ∧ s.level = lvl := by
          obtain ⟨s, hsmem, hsid, hslvl⟩ := hanchor
          exact ⟨s, by simp [hsmem], hsid, hslvl⟩
        have hstep3 := ihc (fun d hd => hsub d (by simp [hd]))
          ((pre ++ [{ c with level := lvl + 1 }]) ++ emitAux vals fuel c.id (lvl + 1))
          hstep2 hanchor2
        simpa [List.append_assoc] using hstep3
    exact haux (childrenAt vals id) (fun c hc => hc) pre hpre hanchor

/-- C4: in every assembled trace (given that every root span arrives with
level `0` and offset `0`, as all decoders and prior rebuilds guarantee),
the vector's head is the root — no `parent_id`, level `0`, offset `0` —
and every later element's `parent_id` is the id of some span appearing at
an earlier position, with level exactly one more than that span's. -/
theorem trace_preorder_invariant (spans : List Span)
    (hroots0 : ∀ s ∈ spans, s.parent_id = none → s.level = 0 ∧ s.offset_micros = 0) :
    ∀ t ∈ buildTracesList spans,
      (∃ r, t.spans.head? = some r ∧ r.parent_id = none ∧ r.level = 0 ∧
        r.offset_micros = 0) ∧
      PreOrderOk t.spans := by
  intro t ht
  obtain ⟨root, hr, he⟩ := buildTracesList_mem spans t ht
  have hrr := List.mem_filter.mp hr
  have hrp : root.parent_id = none := by simpa using hrr.2
  obtain ⟨hlvl, hoff⟩ := hroots0 root hrr.1 hrp
  subst he
  rw [traceNew_spans]
  refine ⟨⟨root, rfl, hrp, hlvl, hoff⟩, ?_⟩
  have hvals := traceVals_ids_nodup root (groupOf spans root.trace_id)
  have h := preOrder_emit (traceVals root (groupOf spans root.trace_id)) hvals
    ((groupOf spans root.trace_id).length + 1) root.id 0 [root]
    (preOrderOk_singleton root) ⟨root, by simp, rfl, hlvl⟩
  simpa using h

/-- Witness for C4 at a concrete out-of-order submission. -/
theorem trace_preorder_invariant_witness :
    (∀ s ∈ spansFixture, s.parent_id = none → s.level = 0 ∧ s.offset_micros = 0) ∧
    ∀ t ∈ buildTracesList spansFixture,
      (∃ r, t.spans.head? = some r ∧ r.parent_id = none ∧ r.level = 0 ∧
        r.offset_micros = 0) ∧
      PreOrderOk t.spans :=
  ⟨by decide, trace_preorder_invariant spansFixture (by decide)⟩

/-! ### C2: determinism of the assembler up to input order -/

/-- The sibling-start condition extends to arbitrary parent keys. -/
theorem siblingStartsNodup_all (spans : List Span) (h : SiblingStartsNodup spans)
    (p : String) :
    ((spans.filter fun s => s.parent_id == some p).map Span.start).Nodup := by
  by_cases hp : p ∈ spans.filterMap Span.parent_id
  · exact h p hp
  · have hnil : spans.filter (fun s => s.parent_id == some p) = [] := by
      rw [List.filter_eq_nil_iff]
      intro s hs hpred
      exact hp (List.mem_filterMap.mpr ⟨s, hs, by simpa using hpred⟩)
    rw [hnil]
    simp

/-- A start-sorted list with pairwise-distinct starts is strictly sorted. -/
theorem sorted_lt_of_le_nodup (l : List Span) (hle : List.Sorted spanLe l)
    (hnd : (l.map Span.start).Nodup) : List.Sorted spanLt l := by
  have hpw : List.Pairwise (fun a b : Span => a.start ≠ b.start) l :=
    List.pairwise_map.mp hnd
  exact (hle.and hpw).imp fun h => lt_of_le_of_ne h.1 h.2

/-- Stable start-sorting of two permuted lists with distinct starts agrees. -/
theorem insertionSort_eq_of_perm (l1 l2 : List Span) (hperm : l1.Perm l2)
    (hnd : (l1.map Span.start).Nodup) :
    List.insertionSort spanLe l1 = List.insertionSort spanLe l2 := by
  have hp : (List.insertionSort spanLe l1).Perm (List.insertionSort spanLe l2) :=
    (List.perm_insertionSort spanLe l1).trans
      (hperm.trans (List.perm_insertionSort spanLe l2).symm)
  have hnd2 : (l2.map Span.start).Nodup := ((hperm.map Span.start).nodup_iff).mp hnd
  have hnd1' : ((List.insertionSort spanLe l1).map Span.start).Nodup :=
    (((List.perm_insertionSort spanLe l1).map Span.start).nodup_iff).mpr hnd
  have hnd2' : ((List.insertionSort spanLe l2).map Span.start).Nodup :=
    (((List.perm_insertionSort spanLe l2).map Span.start).nodup_iff).mpr hnd2
  exact List.eq_of_perm_of_sorted hp
    (sorted_lt_of_le_nodup _ (List.sorted_insertionSort spanLe l1) hnd1')
    (sorted_lt_of_le_nodup _ (List.sorted_insertionSort spanLe l2) hnd2')

/-- The children lists of two permuted value lists agree at every node,
given distinct ids and tie-free sibling starts. -/
theorem childrenAt_perm_eq (vals vals' : List Span) (hperm : vals.Perm vals')
    (hvals : (vals.map Span.id).Nodup)
    (hstarts : ∀ p, ((vals.filter fun s => s.parent_id == some p).map Span.start).Nodup)
    (id : String) : childrenAt vals id = childrenAt vals' id := by
  have hvals' : (vals'.map Span.id).Nodup := ((hperm.map Span.id).nodup_iff).mp hvals
  rw [childrenAt_eq vals hvals id, childrenAt_eq vals' hvals' id]
  exact insertionSort_eq_of_perm _ _ (hperm.filter _) (hstarts id)

/-- Emission only depends on the children function. -/
theorem emitAux_ext (vals vals' : List Span)
    (hch : ∀ q, childrenAt vals q = childrenAt vals' q) :
    ∀ fuel id lvl, emitAux vals fuel id lvl = emitAux vals' fuel id lvl := by
  intro fuel
  induction fuel with
  | zero => intro id lvl; rfl
  | succ fuel ih =>
    intro id lvl
    rw [emitAux_succ, emitAux_succ, hch id]
    exact flatMap_congr_mem _ _ _ fun c _ => by rw [ih c.id (lvl + 1)]

/-- Offset-stamping keeps ids. -/
theorem map_id_setOffset (root : Span) (d : List Span) :
    (d.map (setOffset root)).map Span.id = d.map Span.id := by
  rw [List.map_map]
  exact List.map_congr_left fun s _ => rfl

/-- Under distinct ids the value list is exactly the stamped descendants. -/
theorem traceVals_eq_of_nodup (root : Span) (d : List Span)
    (hids : (d.map Span.id).Nodup) :
    traceVals root d = d.map (setOffset root) := by
  unfold traceVals
  rw [spansMapOf_eq_map _ (by rw [map_id_setOffset]; exact hids)]
  unfold valuesA
  rw [List.map_map]
  conv_rhs => rw [← List.map_id (d.map (setOffset root))]
  exact List.map_congr_left fun s _ => rfl

/-- `Trace::new` is invariant under permutation of its descendants, given
distinct ids and tie-free sibling starts. -/
theorem traceNew_perm_eq (root : Span) (d d' : List Span) (hperm : d.Perm d')
    (hids : (d.map Span.id).Nodup)
    (hstarts : ∀ p, ((d.filter fun s => s.parent_id == some p).map Span.start).Nodup) :
    Trace.new root d = Trace.new root d' := by
  have hids' : (d'.map Span.id).Nodup := ((hperm.map Span.id).nodup_iff).mp hids
  have hv : traceVals root d = d.map (setOffset root) := traceVals_eq_of_nodup root d hids
  have hv' : traceVals root d' = d'.map (setOffset root) :=
    traceVals_eq_of_nodup root d' hids'
  have hvperm : (traceVals root d).Perm (traceVals root d') := by
    rw [hv, hv']
    exact hperm.map _
  have hvids := traceVals_ids_nodup root d
  have hvstarts : ∀ p,
      (((traceVals root d).filter fun s => s.parent_id == some p).map Span.start).Nodup := by
    intro p
    rw [hv, List.filter_map]
    have hpred : (d.filter ((fun s => s.parent_id == some p) ∘ setOffset root)) =
        d.filter fun s => s.parent_id == some p :=
      List.filter_congr fun s _ => rfl
    rw [hpred, List.map_map]
    have hstart : ((d.filter fun s => s.parent_id == some p).map (Span.start ∘ setOffset root)) =
        (d.filter fun s => s.parent_id == some p).map Span.start :=
      List.map_congr_left fun s _ => rfl
    rw [hstart]
    exact hstarts p
  have hch : ∀ q, childrenAt (traceVals root d) q = childrenAt (traceVals root d') q :=
    fun q => childrenAt_perm_eq _ _ hvperm hvids hvstarts q
  have hlen : d.length = d'.length := hperm.length_eq
  have hspans : (Trace.new root d).spans = (Trace.new root d').spans := by
    rw [traceNew_spans, traceNew_spans, hlen, emitAux_ext _ _ hch]
  have h1 : Trace.new root d =
      ⟨root.trace_id, (Trace.new root d).spans,
        indexConnections ((Trace.new root d).spans)⟩ := rfl
  have h2 : Trace.new root d' =
      ⟨root.trace_id, (Trace.new root d').spans,
        indexConnections ((Trace.new root d').spans)⟩ := rfl
  rw [h1, h2, hspans]

/-- The assembled trace lists of two permuted inputs are permutations of
one another (so equal as multisets of traces, span sequences included). -/
theorem buildTracesList_perm (spans spans' : List Span) (hperm : spans.Perm spans')
    (hids : (spans.map Span.id).Nodup) (hsib : SiblingStartsNodup spans) :
    (buildTracesList spans).Perm (buildTracesList spans') := by
  rw [buildTracesList_eq, buildTracesList_eq]
  have hroots : (spans.filter fun s => s.parent_id.isNone).Perm
      (spans'.filter fun s => s.parent_id.isNone) := hperm.filter _
  have hfun : ∀ root ∈ spans'.filter (fun s => s.parent_id.isNone),
      Trace.new root (groupOf spans root.trace_id) =
        Trace.new root (groupOf spans' root.trace_id) := by
    intro root _
    have hgperm : (groupOf spans root.trace_id).Perm (groupOf spans' root.trace_id) := by
      unfold groupOf
      exact (hperm.filter _).filter _
    have hgsub : (groupOf spans root.trace_id).Sublist spans :=
      (List.filter_sublist _).trans (List.filter_sublist _)
    have hgids : ((groupOf spans root.trace_id).map Span.id).Nodup :=
      List.Nodup.sublist (hgsub.map Span.id) hids
    have hgstarts : ∀ p, (((groupOf spans root.trace_id).filter fun s =>
        s.parent_id == some p).map Span.start).Nodup := by
      intro p
      have hsub2 : ((groupOf spans root.trace_id).filter fun s =>
          s.parent_id == some p).Sublist (spans.filter fun s => s.parent_id == some p) :=
        List.Sublist.filter _ hgsub
      exact List.Nodup.sublist (hsub2.map Span.start) (siblingStartsNodup_all spans hsib p)
    exact traceNew_perm_eq root _ _ hgperm hgids hgstarts
  have h1 : ((spans.filter fun s => s.parent_id.isNone).map
      fun root => Trace.new root (groupOf spans root.trace_id)).Perm
      ((spans'.filter fun s => s.parent_id.isNone).map
      fun root => Trace.new root (groupOf spans root.trace_id)) :=
    hroots.map _
  have h2 : ((spans'.filter fun s => s.parent_id.isNone).map
      fun root => Trace.new root (groupOf spans root.trace_id)) =
      ((spans'.filter fun s => s.parent_id.isNone).map
      fun root => Trace.new root (groupOf spans' root.trace_id)) :=
    List.map_congr_left hfun
  rw [h2] at h1
  exact h1

/-- C2 (amended): two assembler runs over permutations of the same spans —
with pairwise-distinct span ids and no two same-parent spans sharing a
start timestamp — produce trace lists that are permutations of each other:
identical trace-id sets and, for each trace, identical ordered span
sequences.  (Tied sibling starts break this; see the counterexample.) -/
theorem build_traces_deterministic (spans spans' : List Span)
    (hperm : spans.Perm spans') (hids : (spans.map Span.id).Nodup)
    (hsib : SiblingStartsNodup spans) :
    ∃ ts ts', build_traces spans = .ok ts ∧ build_traces spans' = .ok ts' ∧
      ts.Perm ts' ∧ (ts.map Trace.id).Perm (ts'.map Trace.id) := by
  refine ⟨buildTracesList spans, buildTracesList spans', rfl, rfl, ?_, ?_⟩
  · exact buildTracesList_perm spans spans' hperm hids hsib
  · exact (buildTracesList_perm spans spans' hperm hids hsib).map Trace.id

/-- C2 counterexample: submitting two equal-start siblings in opposite
orders yields the same trace-id set but different ordered span sequences,
so the claim as stated fails on the code. -/
theorem tie_order_dependent :
    spansTie1.Perm spansTie2 ∧
    ((buildTracesList spansTie1).map fun t => t.spans.map Span.id) = [["r", "a", "b"]] ∧
    ((buildTracesList spansTie2).map fun t => t.spans.map Span.id) = [["r", "b", "a"]] ∧
    buildTracesList spansTie1 ≠ buildTracesList spansTie2 :=
  ⟨by decide, by decide, by decide, by decide⟩

/-- Witness for the amended C2 theorem at a concrete pair of runs. -/
theorem build_traces_deterministic_witness :
    spansDet1.Perm spansDet2 ∧ ((spansDet1.map Span.id).Nodup) ∧
    SiblingStartsNodup spansDet1 ∧
    ∃ ts ts', build_traces spansDet1 = .ok ts ∧ build_traces spansDet2 = .ok ts' ∧
      ts.Perm ts' ∧ (ts.map Trace.id).Perm (ts'.map Trace.id) :=
  ⟨by decide, by decide, by decide,
    build_traces_deterministic spansDet1 spansDet2 (by decide) (by decide) (by decide)⟩

end EguiTrace
